import Mathlib

/-!
Shallow embedding of `src/pings.ts` (pi-pings): a directory-driven process
supervisor.  Pure functions model the supervisor's state transitions; effects
(delivery, kills, spawns, mkdir, local logging) are collected in a list.
-/

/-- JavaScript-style whitespace test used by `String.prototype.trim`. -/
def isJsWs (c : Char) : Bool :=
  c == ' ' || c == '\t' || c == '\n' || c == '\r' || c == '\x0b' || c == '\x0c'

/-- Trim leading and trailing whitespace from a character list. -/
def trimChars (l : List Char) : List Char :=
  ((l.dropWhile isJsWs).reverse.dropWhile isJsWs).reverse

/-- Model of JavaScript `String.prototype.trim` (trims both ends). -/
def jsTrim (s : String) : String :=
  String.mk (trimChars s.data)

/-- Model of Node `path.join(dir, file)` for a simple file name. -/
def joinPath (d f : String) : String := d ++ "/" ++ f

/-- Model of Node `path.basename`: the portion after the last slash. -/
def basename (p : String) : String :=
  String.mk ((p.data.reverse.takeWhile (fun c => c != '/')).reverse)

/-- Observable side effects of the supervisor. -/
inductive Effect where
  | deliver (msg : String)
  | kill (pid : Nat) (signal : String)
  | spawnProc (path : String) (pid : Nat)
  | mkdir (dir : String)
  | logError (msg : String)
  deriving DecidableEq, Repr

/-- Is the effect a call to the delivery sink? -/
def Effect.isDeliver : Effect → Bool
  | .deliver _ => true
  | _ => false

/-- Is the effect a spawn of a child process? -/
def Effect.isSpawn : Effect → Bool
  | .spawnProc _ _ => true
  | _ => false

/-- Is the effect a kill signal? -/
def Effect.isKill : Effect → Bool
  | .kill _ _ => true
  | _ => false

/-- One `PingProcess` object (`{ proc, scriptPath, alive }` in the source).
The spawned OS process is identified by its index in the state's object
store, mirroring JavaScript object identity for the closed-over `entry`. -/
structure PingEntry where
  scriptPath : String
  alive : Bool
  deriving DecidableEq, Repr

/-- Supervisor state: `entries` is the store of all entry objects ever
created (a pid is an index into it); `running` is the live table
(`Map<string, PingProcess>` in the source, holding a reference = pid);
`shuttingDown` is the teardown flag. -/
structure PingsState where
  entries : List PingEntry
  running : List (String × Nat)
  shuttingDown : Bool
  deriving DecidableEq, Repr

/-- The state at extension load: empty table, not shutting down. -/
def initState : PingsState := ⟨[], [], false⟩

/-- `Map.get`: value of a key, if present. -/
def mapGet (m : List (String × Nat)) (k : String) : Option Nat :=
  (m.find? (fun p => p.1 == k)).map (·.2)

/-- `Map.has`. -/
def mapHas (m : List (String × Nat)) (k : String) : Bool :=
  m.any (fun p => p.1 == k)

/-- `Map.set`: replace in place if the key exists, else append. -/
def mapSet (m : List (String × Nat)) (k : String) (v : Nat) : List (String × Nat) :=
  if mapHas m k then m.map (fun p => if p.1 == k then (k, v) else p)
  else m ++ [(k, v)]

/-- `Map.delete`. -/
def mapDelete (m : List (String × Nat)) (k : String) : List (String × Nat) :=
  m.filter (fun p => p.1 != k)

/-- Aliveness of the entry object with the given pid. -/
def entryAliveB (st : PingsState) (pid : Nat) : Bool :=
  match st.entries.get? pid with
  | some e => e.alive
  | none => false

/-- `stopPing(name)`: if an entry exists, send SIGTERM when it is alive and
unconditionally remove the table entry; a no-op when the name is absent. -/
def stopPing (st : PingsState) (name : String) : PingsState × List Effect :=
  match mapGet st.running name with
  | none => (st, [])
  | some pid =>
    let effs := if entryAliveB st pid then [Effect.kill pid "SIGTERM"] else []
    ({ st with running := mapDelete st.running name }, effs)

/-- Outcome of the `spawn(...)` call inside `startPing`'s `try` block:
either it returns a child-process handle, or it throws synchronously. -/
inductive SpawnOutcome where
  | ok
  | syncThrow (msg : String)
  deriving DecidableEq, Repr

/-- `startPing(scriptPath)`: stop any prior instance of the name, then spawn;
on success insert the new entry into the table, on a synchronous spawn
exception log locally (`console.error`) and insert nothing. -/
def startPing (st : PingsState) (scriptPath : String) (oc : SpawnOutcome) :
    PingsState × List Effect :=
  let name := basename scriptPath
  let r := stopPing st name
  match oc with
  | .syncThrow msg =>
    (r.1, r.2 ++ [Effect.logError ("[pings] Error starting " ++ name ++ ": " ++ msg)])
  | .ok =>
    let pid := r.1.entries.length
    ({ r.1 with
        entries := r.1.entries ++ [{ scriptPath := scriptPath, alive := true }],
        running := mapSet r.1.running name pid },
     r.2 ++ [Effect.spawnProc scriptPath pid])

/-- The `rl.on("line")` handler body: trim, drop empty, deliver tagged. -/
def lineHandler (name line : String) : Option String :=
  let trimmed := jsTrim line
  if trimmed == "" then none
  else some ("[PING:" ++ name ++ "] " ++ trimmed)

/-- A line event arriving from a (once-started) process' stdout reader.
The handler closes over `name` and never consults or mutates the state. -/
def handleLineEvent (st : PingsState) (name line : String) : PingsState × List Effect :=
  (st,
    match lineHandler name line with
    | none => []
    | some m => [Effect.deliver m])

/-- The `[: <stderr>]` suffix of the exit-failure message:
`stderrChunks.join("").trim()`, prefixed by `": "` when non-empty. -/
def exitDetail (stderrChunks : List String) : String :=
  let stderr := jsTrim (String.join stderrChunks)
  if stderr == "" then "" else ": " ++ stderr

/-- The `proc.on("exit")` handler: set `alive := false` on the closed-over
entry object (`pid`), delete the table binding for `name`, and unless
shutting down deliver a failure message when the code is neither 0 nor
null. -/
def exitHandler (st : PingsState) (pid : Nat) (name : String) (code : Option Int)
    (stderrChunks : List String) : PingsState × List Effect :=
  let entries' :=
    match st.entries.get? pid with
    | some e => st.entries.set pid { e with alive := false }
    | none => st.entries
  let st' := { st with entries := entries', running := mapDelete st.running name }
  if st.shuttingDown then (st', [])
  else
    match code with
    | some c =>
      if c = 0 then (st', [])
      else
        (st', [Effect.deliver
          ("[PING:" ++ name ++ "] exited with code " ++ toString c ++ exitDetail stderrChunks)])
    | none => (st', [])

/-- The `proc.on("error")` handler: delete the table binding and, unless
shutting down, deliver the failed-to-start message. -/
def errorHandler (st : PingsState) (name errMsg : String) : PingsState × List Effect :=
  let st' := { st with running := mapDelete st.running name }
  if st.shuttingDown then (st', [])
  else (st', [Effect.deliver ("[PING:" ++ name ++ "] failed to start: " ++ errMsg)])

/-- Result of `fs.statSync` on a directory entry. -/
structure FileStat where
  isFile : Bool
  mode : Nat
  deriving DecidableEq, Repr

/-- One entry of `fs.readdirSync(pingsDir)`; `stat = none` models
`statSync` throwing (entry vanished between readdir and stat). -/
structure DirEntry where
  name : String
  stat : Option FileStat
  deriving DecidableEq, Repr

/-- Eligibility: a regular file with the owner-executable bit (0o100). -/
def eligibleEntry (e : DirEntry) : Bool :=
  match e.stat with
  | none => false
  | some s => s.isFile && (s.mode &&& 64 != 0)

/-- Does the directory listing contain an eligible entry with this name? -/
def inEligibleB (ds : List DirEntry) (n : String) : Bool :=
  ds.any (fun e => e.name == n && eligibleEntry e)

/-- Accumulator of `syncPings`' first loop: the `scripts` set being built,
the evolving state, and the effects issued so far. -/
structure SyncAcc where
  scripts : List String
  st : PingsState
  effs : List Effect
  deriving Repr

/-- The first loop of `syncPings`: walk the directory listing, skip entries
whose stat fails, non-files, and non-executables; record eligible names in
`scripts`; start each eligible name not already in the table. -/
def syncStartLoop (pingsDir : String) (oc : String → SpawnOutcome) :
    List DirEntry → SyncAcc → SyncAcc
  | [], acc => acc
  | e :: rest, acc =>
    match e.stat with
    | none => syncStartLoop pingsDir oc rest acc
    | some s =>
      if !s.isFile then syncStartLoop pingsDir oc rest acc
      else if s.mode &&& 64 == 0 then syncStartLoop pingsDir oc rest acc
      else
        let acc1 : SyncAcc := { acc with scripts := acc.scripts ++ [e.name] }
        if mapHas acc1.st.running e.name then syncStartLoop pingsDir oc rest acc1
        else
          let r := startPing acc1.st (joinPath pingsDir e.name) (oc e.name)
          syncStartLoop pingsDir oc rest { scripts := acc1.scripts, st := r.1, effs := acc1.effs ++ r.2 }

/-- The second loop of `syncPings`: stop every running name absent from the
`scripts` set. -/
def syncStopLoop : List String → List String → PingsState → List Effect →
    PingsState × List Effect
  | [], _, st, effs => (st, effs)
  | n :: rest, scripts, st, effs =>
    if scripts.contains n then syncStopLoop rest scripts st effs
    else
      let r := stopPing st n
      syncStopLoop rest scripts r.1 (effs ++ r.2)

/-- `syncPings()`: when the directory is missing (`dir = none`), create it
and return; otherwise run the start loop then the stop loop.  The spawn
outcome of each started name is supplied by `oc`. -/
def syncPings (dir : Option (List DirEntry)) (oc : String → SpawnOutcome)
    (pingsDir : String) (st : PingsState) : PingsState × List Effect :=
  match dir with
  | none => (st, [Effect.mkdir pingsDir])
  | some ds =>
    let acc := syncStartLoop pingsDir oc ds { scripts := [], st := st, effs := [] }
    let keys := acc.st.running.map Prod.fst
    syncStopLoop keys acc.scripts acc.st acc.effs

/-- The debounce delay of `debouncedSync` (`setTimeout(syncPings, 200)`). -/
def debounceDelayMs : Nat := 200

/-- `debouncedSync()`: cancel any pending timer and schedule `syncPings`
one debounce interval from now (trailing-edge debounce). -/
def scheduleSync (now : Nat) (_pending : Option Nat) : Option Nat :=
  some (now + debounceDelayMs)

/-- Pending fire time after a sequence of watch events at the given times. -/
def afterEvents (ts : List Nat) : Option Nat :=
  ts.foldl (fun p t => scheduleSync t p) none

/-- The `fs.watch` callback (`() => debouncedSync()`): it only reschedules
the debounce timer and never touches the supervisor state. -/
def watchCallback (st : PingsState) (now : Nat) (pending : Option Nat) :
    PingsState × Option Nat :=
  (st, scheduleSync now pending)

/-- Number of live-table bindings carrying the given name. -/
def countKey (m : List (String × Nat)) (k : String) : Nat :=
  (m.map Prod.fst).count k

/-- The live table has at most one binding per name. -/
def keysNodup (m : List (String × Nat)) : Prop :=
  (m.map Prod.fst).Nodup

/-- Split a character stream at newline characters; always non-empty, the
last element being the residue after the final newline.  Applied after
`normalizeNl`, this yields the line decomposition of a whole stream. -/
def splitNl : List Char → List (List Char)
  | [] => [[]]
  | c :: cs =>
    let r := splitNl cs
    if c = '\n' then [] :: r
    else (c :: r.headI) :: r.tail

/-- State of the incremental line reader: the current line buffer, and
whether the previous character was a carriage return (an immediately
following newline then belongs to the same `\r\n` break). -/
structure RlBuf where
  buf : List Char
  sawCR : Bool
  deriving DecidableEq, Repr

/-- Incremental line reader (Node `readline`): a line is emitted at `\n`,
at a lone `\r`, and once at `\r\n`; a newline directly following a
carriage return is swallowed — readline collapses `\r\n` into a single
break, also across read boundaries (within its `crlfDelay`).  Returns the
new state and the emitted lines. -/
def feedChars (st : RlBuf) : List Char → RlBuf × List (List Char)
  | [] => (st, [])
  | c :: cs =>
    if c = '\r' then
      let r := feedChars ⟨[], true⟩ cs
      (r.1, st.buf :: r.2)
    else if c = '\n' then
      if st.sawCR then feedChars ⟨st.buf, false⟩ cs
      else
        let r := feedChars ⟨[], false⟩ cs
        (r.1, st.buf :: r.2)
    else feedChars ⟨st.buf ++ [c], false⟩ cs

/-- Feed a sequence of chunks (arbitrary read boundaries) through the
incremental reader. -/
def runChunks (st : RlBuf) : List (List Char) → RlBuf × List (List Char)
  | [] => (st, [])
  | ch :: rest =>
    let r1 := feedChars st ch
    let r2 := runChunks r1.1 rest
    (r2.1, r1.2 ++ r2.2)

/-- On close, `readline` emits the residual buffer as a final line when it
is non-empty. -/
def closeEmit (buf : List Char) : List (List Char) :=
  if buf.isEmpty then [] else [buf]

/-- All lines the readline interface emits for a chunked stdout stream. -/
def rlLines (chunks : List (List Char)) : List (List Char) :=
  let r := runChunks ⟨[], false⟩ chunks
  r.2 ++ closeEmit r.1.buf

/-- All messages the line forwarder delivers for a chunked stdout stream. -/
def streamDeliveries (name : String) (chunks : List (List Char)) : List String :=
  (rlLines chunks).filterMap (fun l => lineHandler name (String.mk l))

/-- Drop one leading newline, if present. -/
def dropLeadingLF : List Char → List Char
  | [] => []
  | c :: cs => if c = '\n' then cs else c :: cs

/-- Normalize the line breaks of a whole stream: `\r\n` (one break) and a
lone `\r` both become `\n`, so `splitNl` after normalization yields
exactly the lines readline emits. -/
def normalizeNl : List Char → List Char
  | [] => []
  | c :: cs =>
    if c = '\r' then
      match cs with
      | [] => ['\n']
      | c2 :: cs2 =>
        if c2 = '\n' then '\n' :: normalizeNl cs2
        else '\n' :: normalizeNl (c2 :: cs2)
    else c :: normalizeNl cs

/-- Modelled from the spec's words (refinement comparison for the line
forwarder): trim trailing whitespace only. -/
def trimEndSpec (s : String) : String :=
  String.mk ((s.data.reverse.dropWhile isJsWs).reverse)

/-! ### Lemmas about the live-table operations -/

theorem boolEqIff (a b : Bool) : a = b ↔ (a = true ↔ b = true) := by
  cases a <;> cases b <;> simp

theorem mapHas_iff (m : List (String × Nat)) (k : String) :
    mapHas m k = true ↔ ∃ p ∈ m, p.1 = k := by
  simp [mapHas, List.any_eq_true, beq_iff_eq]

theorem mapHas_mapDelete_iff (m : List (String × Nat)) (k n : String) :
    mapHas (mapDelete m k) n = true ↔ (mapHas m n = true ∧ n ≠ k) := by
  simp only [mapHas_iff, mapDelete, List.mem_filter, bne_iff_ne]
  constructor
  · rintro ⟨p, ⟨hm, hne⟩, rfl⟩
    exact ⟨⟨p, hm, rfl⟩, hne⟩
  · rintro ⟨⟨p, hm, rfl⟩, hne⟩
    exact ⟨p, ⟨hm, hne⟩, rfl⟩

theorem fst_setIf (k : String) (v : Nat) (p : String × Nat) :
    (if p.1 == k then (k, v) else p).1 = p.1 := by
  by_cases h : p.1 = k
  · simp [h]
  · simp [h]

theorem mem_keys_iff (m : List (String × Nat)) (n : String) :
    n ∈ m.map Prod.fst ↔ mapHas m n = true := by
  rw [mapHas_iff]
  simp [List.mem_map, eq_comm]

theorem keys_mapSet_pos (m : List (String × Nat)) (k : String) (v : Nat)
    (h : mapHas m k = true) :
    (mapSet m k v).map Prod.fst = m.map Prod.fst := by
  simp only [mapSet, h, if_true, List.map_map]
  exact List.map_congr_left (fun p _ => fst_setIf k v p)

theorem keys_mapSet_neg (m : List (String × Nat)) (k : String) (v : Nat)
    (h : mapHas m k = false) :
    (mapSet m k v).map Prod.fst = m.map Prod.fst ++ [k] := by
  simp [mapSet, h]

theorem mapHas_mapSet_iff (m : List (String × Nat)) (k n : String) (v : Nat) :
    mapHas (mapSet m k v) n = true ↔ (mapHas m n = true ∨ n = k) := by
  by_cases h : mapHas m k = true
  · rw [← mem_keys_iff, keys_mapSet_pos m k v h, mem_keys_iff]
    constructor
    · exact Or.inl
    · rintro (h1 | rfl)
      · exact h1
      · exact h
  · rw [← mem_keys_iff, keys_mapSet_neg m k v (by simpa using h), List.mem_append,
      List.mem_singleton, mem_keys_iff]

theorem mapGet_cons_eq (p : String × Nat) (rest : List (String × Nat)) (n : String)
    (h : p.1 = n) : mapGet (p :: rest) n = some p.2 := by
  rw [mapGet, List.find?_cons_of_pos _ (by simp [h])]
  rfl

theorem mapGet_cons_ne (p : String × Nat) (rest : List (String × Nat)) (n : String)
    (h : p.1 ≠ n) : mapGet (p :: rest) n = mapGet rest n := by
  rw [mapGet, List.find?_cons_of_neg _ (by simp [h])]
  rfl

theorem mapGet_mapDelete_ne (m : List (String × Nat)) (k n : String) (hn : n ≠ k) :
    mapGet (mapDelete m k) n = mapGet m n := by
  induction m with
  | nil => rfl
  | cons p rest ih =>
    by_cases hp : p.1 = k
    · have hpn : p.1 ≠ n := by
        rw [hp]
        exact fun hh => hn hh.symm
      have hdrop : mapDelete (p :: rest) k = mapDelete rest k := by
        simp [mapDelete, List.filter_cons, hp]
      rw [hdrop, ih, mapGet_cons_ne p rest n hpn]
    · have hkeep : mapDelete (p :: rest) k = p :: mapDelete rest k := by
        simp [mapDelete, List.filter_cons, hp]
      by_cases hpn : p.1 = n
      · rw [hkeep, mapGet_cons_eq p _ n hpn, mapGet_cons_eq p rest n hpn]
      · rw [hkeep, mapGet_cons_ne p _ n hpn, mapGet_cons_ne p rest n hpn]
        exact ih

theorem mapGet_mapReplace_ne (m : List (String × Nat)) (k n : String) (v : Nat)
    (hk : k ≠ n) :
    mapGet (m.map (fun p => if p.1 == k then (k, v) else p)) n = mapGet m n := by
  induction m with
  | nil => rfl
  | cons p rest ih =>
    rw [List.map_cons]
    by_cases hpn : p.1 = n
    · have hpk : (p.1 == k) = false := by
        rw [hpn]
        simp
        exact fun hh => hk hh.symm
      have heq : (if p.1 == k then (k, v) else p) = p := by rw [hpk]; simp
      rw [heq, mapGet_cons_eq p _ n hpn, mapGet_cons_eq p rest n hpn]
    · have h1 : (if p.1 == k then (k, v) else p).1 ≠ n := by
        rw [fst_setIf]
        exact hpn
      rw [mapGet_cons_ne _ _ n h1, mapGet_cons_ne p rest n hpn]
      exact ih

theorem mapGet_append_single_ne (m : List (String × Nat)) (k n : String) (v : Nat)
    (hk : k ≠ n) :
    mapGet (m ++ [(k, v)]) n = mapGet m n := by
  induction m with
  | nil =>
    rw [List.nil_append, mapGet_cons_ne _ _ n hk]
  | cons p rest ih =>
    rw [List.cons_append]
    by_cases hpn : p.1 = n
    · rw [mapGet_cons_eq p _ n hpn, mapGet_cons_eq p rest n hpn]
    · rw [mapGet_cons_ne p _ n hpn, mapGet_cons_ne p rest n hpn]
      exact ih

theorem mapGet_mapSet_ne (m : List (String × Nat)) (k n : String) (v : Nat)
    (hk : k ≠ n) : mapGet (mapSet m k v) n = mapGet m n := by
  unfold mapSet
  by_cases h : mapHas m k
  · rw [if_pos h]
    exact mapGet_mapReplace_ne m k n v hk
  · rw [if_neg h]
    exact mapGet_append_single_ne m k n v hk

theorem keysNodup_mapDelete (m : List (String × Nat)) (k : String)
    (hn : keysNodup m) : keysNodup (mapDelete m k) :=
  hn.sublist (List.Sublist.map Prod.fst (List.filter_sublist m))

theorem keysNodup_mapSet (m : List (String × Nat)) (k : String) (v : Nat)
    (hn : keysNodup m) : keysNodup (mapSet m k v) := by
  by_cases h : mapHas m k = true
  · unfold keysNodup
    rw [keys_mapSet_pos m k v h]
    exact hn
  · unfold keysNodup
    rw [keys_mapSet_neg m k v (by simpa using h)]
    refine List.Nodup.append hn (List.nodup_singleton k) ?_
    intro a ha hb
    rw [List.mem_singleton] at hb
    subst hb
    exact h ((mem_keys_iff m a).1 ha)

theorem countKey_eq_zero (m : List (String × Nat)) (k : String)
    (h : mapHas m k = false) : countKey m k = 0 := by
  unfold countKey
  rw [List.count_eq_zero]
  intro hmem
  rw [mem_keys_iff] at hmem
  rw [h] at hmem
  exact absurd hmem (by simp)

theorem countKey_mapSet_of_not_has (m : List (String × Nat)) (k : String) (v : Nat)
    (h : mapHas m k = false) : countKey (mapSet m k v) k = 1 := by
  unfold countKey
  rw [keys_mapSet_neg m k v h, List.count_append]
  have h0 : countKey m k = 0 := countKey_eq_zero m k h
  unfold countKey at h0
  rw [h0]
  simp

/-! ### Lemmas about the supervisor primitives -/

theorem mapGet_eq_none_iff (m : List (String × Nat)) (k : String) :
    mapGet m k = none ↔ mapHas m k = false := by
  unfold mapGet mapHas
  simp [Option.map_eq_none', List.find?_eq_none, List.any_eq_false]

theorem stopPing_entries (st : PingsState) (n : String) :
    (stopPing st n).1.entries = st.entries := by
  unfold stopPing
  cases mapGet st.running n
  · rfl
  · rfl

theorem stopPing_shuttingDown (st : PingsState) (n : String) :
    (stopPing st n).1.shuttingDown = st.shuttingDown := by
  unfold stopPing
  cases mapGet st.running n
  · rfl
  · rfl

theorem mapHas_stopPing_iff (st : PingsState) (k n : String) :
    mapHas (stopPing st k).1.running n = true ↔
      (mapHas st.running n = true ∧ n ≠ k) := by
  unfold stopPing
  cases hg : mapGet st.running k with
  | none =>
    have hk : mapHas st.running k = false := (mapGet_eq_none_iff _ _).1 hg
    constructor
    · intro h
      refine ⟨h, ?_⟩
      rintro rfl
      rw [h] at hk
      exact absurd hk (by simp)
    · exact fun h => h.1
  | some pid =>
    exact mapHas_mapDelete_iff st.running k n

theorem mapHas_stopPing_self (st : PingsState) (k : String) :
    mapHas (stopPing st k).1.running k = false := by
  cases hh : mapHas (stopPing st k).1.running k
  · rfl
  · exact absurd ((mapHas_stopPing_iff st k k).1 hh).2 (by simp)

theorem mapGet_stopPing_ne (st : PingsState) (k n : String) (h : n ≠ k) :
    mapGet (stopPing st k).1.running n = mapGet st.running n := by
  unfold stopPing
  cases mapGet st.running k
  · rfl
  · exact mapGet_mapDelete_ne st.running k n h

theorem stopPing_keysNodup (st : PingsState) (k : String)
    (h : keysNodup st.running) : keysNodup (stopPing st k).1.running := by
  unfold stopPing
  cases mapGet st.running k
  · exact h
  · exact keysNodup_mapDelete _ _ h

theorem stopPing_effects_kill (st : PingsState) (k : String) :
    ∀ e ∈ (stopPing st k).2, e.isKill = true := by
  unfold stopPing
  cases mapGet st.running k with
  | none =>
    intro e he
    simp at he
  | some pid =>
    intro e he
    cases ha : entryAliveB st pid <;> simp [ha] at he
    subst he
    rfl

theorem stopPing_kills (st : PingsState) (k : String) (pid : Nat)
    (hg : mapGet st.running k = some pid) (ha : entryAliveB st pid = true) :
    (stopPing st k).2 = [Effect.kill pid "SIGTERM"] := by
  simp [stopPing, hg, ha]

theorem mapHas_startPing_ok_iff (st : PingsState) (p n : String) :
    mapHas (startPing st p .ok).1.running n = true ↔
      (mapHas st.running n = true ∨ n = basename p) := by
  simp only [startPing]
  rw [mapHas_mapSet_iff]
  constructor
  · rintro (h1 | rfl)
    · exact Or.inl ((mapHas_stopPing_iff st _ n).1 h1).1
    · exact Or.inr rfl
  · rintro (h1 | rfl)
    · by_cases hb : n = basename p
      · exact Or.inr hb
      · exact Or.inl ((mapHas_stopPing_iff st _ n).2 ⟨h1, hb⟩)
    · exact Or.inr rfl

theorem mapHas_startPing_throw_iff (st : PingsState) (p m n : String) :
    mapHas (startPing st p (.syncThrow m)).1.running n = true ↔
      (mapHas st.running n = true ∧ n ≠ basename p) :=
  mapHas_stopPing_iff st (basename p) n

theorem mapGet_startPing_ne (st : PingsState) (p : String) (oc : SpawnOutcome)
    (n : String) (h : basename p ≠ n) :
    mapGet (startPing st p oc).1.running n = mapGet st.running n := by
  cases oc with
  | ok =>
    simp only [startPing]
    rw [mapGet_mapSet_ne _ _ _ _ h]
    exact mapGet_stopPing_ne st _ n (fun hh => h hh.symm)
  | syncThrow m =>
    exact mapGet_stopPing_ne st _ n (fun hh => h hh.symm)

theorem startPing_entries_append (st : PingsState) (p : String) (oc : SpawnOutcome) :
    ∃ extra, (startPing st p oc).1.entries = st.entries ++ extra := by
  cases oc with
  | ok =>
    refine ⟨[{ scriptPath := p, alive := true }], ?_⟩
    simp only [startPing]
    rw [stopPing_entries]
  | syncThrow m =>
    refine ⟨[], ?_⟩
    simp only [startPing]
    rw [stopPing_entries, List.append_nil]

theorem startPing_shuttingDown (st : PingsState) (p : String) (oc : SpawnOutcome) :
    (startPing st p oc).1.shuttingDown = st.shuttingDown := by
  unfold startPing
  cases oc with
  | ok => exact stopPing_shuttingDown st (basename p)
  | syncThrow m => exact stopPing_shuttingDown st (basename p)

theorem startPing_keysNodup (st : PingsState) (p : String) (oc : SpawnOutcome)
    (h : keysNodup st.running) : keysNodup (startPing st p oc).1.running := by
  unfold startPing
  cases oc with
  | ok => exact keysNodup_mapSet _ _ _ (stopPing_keysNodup st _ h)
  | syncThrow m => exact stopPing_keysNodup st _ h

theorem startPing_ok_countKey (st : PingsState) (p : String) :
    countKey (startPing st p .ok).1.running (basename p) = 1 := by
  unfold startPing
  exact countKey_mapSet_of_not_has _ _ _ (mapHas_stopPing_self st (basename p))

theorem startPing_throw_countKey (st : PingsState) (p m : String) :
    countKey (startPing st p (.syncThrow m)).1.running (basename p) = 0 := by
  unfold startPing
  exact countKey_eq_zero _ _ (mapHas_stopPing_self st (basename p))

theorem startPing_kills_prior (st : PingsState) (p : String) (oc : SpawnOutcome)
    (pid : Nat) (hg : mapGet st.running (basename p) = some pid)
    (ha : entryAliveB st pid = true) :
    Effect.kill pid "SIGTERM" ∈ (startPing st p oc).2 := by
  have h2 := stopPing_kills st (basename p) pid hg ha
  unfold startPing
  cases oc with
  | ok => simp [h2]
  | syncThrow m => simp [h2]

theorem startPing_throw_no_deliver (st : PingsState) (p m : String) :
    ∀ e ∈ (startPing st p (.syncThrow m)).2, e.isDeliver = false := by
  unfold startPing
  intro e he
  rw [List.mem_append] at he
  rcases he with he | he
  · have hk := stopPing_effects_kill st (basename p) e he
    cases e <;> simp_all [Effect.isKill, Effect.isDeliver]
  · rw [List.mem_singleton] at he
    subst he
    rfl

theorem startPing_throw_logs (st : PingsState) (p m : String) :
    Effect.logError ("[pings] Error starting " ++ basename p ++ ": " ++ m)
      ∈ (startPing st p (.syncThrow m)).2 := by
  unfold startPing
  simp

theorem handleLineEvent_state (st : PingsState) (name line : String) :
    (handleLineEvent st name line).1 = st := rfl

theorem mapHas_mapDelete_self (m : List (String × Nat)) (k : String) :
    mapHas (mapDelete m k) k = false := by
  cases h : mapHas (mapDelete m k) k
  · rfl
  · exact absurd ((mapHas_mapDelete_iff m k k).1 h).2 (by simp)

theorem exitHandler_running (st : PingsState) (pid : Nat) (name : String)
    (code : Option Int) (chunks : List String) :
    (exitHandler st pid name code chunks).1.running = mapDelete st.running name := by
  unfold exitHandler
  cases hget : st.entries.get? pid <;> cases hsd : st.shuttingDown <;>
    rcases code with _ | c <;> simp
  all_goals (split <;> rfl)

theorem exitHandler_entries (st : PingsState) (pid : Nat) (name : String)
    (code : Option Int) (chunks : List String) :
    (exitHandler st pid name code chunks).1.entries =
      (match st.entries.get? pid with
       | some e => st.entries.set pid { e with alive := false }
       | none => st.entries) := by
  unfold exitHandler
  cases hget : st.entries.get? pid <;> cases hsd : st.shuttingDown <;>
    rcases code with _ | c <;> simp
  all_goals (split <;> rfl)

theorem exitHandler_effects (st : PingsState) (pid : Nat) (name : String)
    (code : Option Int) (chunks : List String) :
    (exitHandler st pid name code chunks).2 =
      (if st.shuttingDown then []
       else
         match code with
         | some c =>
           if c = 0 then []
           else [Effect.deliver
             ("[PING:" ++ name ++ "] exited with code " ++ toString c ++ exitDetail chunks)]
         | none => []) := by
  unfold exitHandler
  cases hget : st.entries.get? pid <;> cases hsd : st.shuttingDown <;>
    rcases code with _ | c <;> simp
  all_goals (split <;> rfl)

theorem exitHandler_entries_other (st : PingsState) (pid : Nat) (name : String)
    (code : Option Int) (chunks : List String) (q : Nat) (hq : q ≠ pid) :
    (exitHandler st pid name code chunks).1.entries.get? q = st.entries.get? q := by
  rw [exitHandler_entries]
  cases st.entries.get? pid with
  | none => rfl
  | some e =>
    rw [List.get?_eq_getElem?, List.get?_eq_getElem?]
    exact List.getElem?_set_ne (Ne.symm hq)

theorem exitHandler_not_has (st : PingsState) (pid : Nat) (name : String)
    (code : Option Int) (chunks : List String) :
    mapHas (exitHandler st pid name code chunks).1.running name = false := by
  rw [exitHandler_running]
  exact mapHas_mapDelete_self st.running name

theorem exitHandler_other_names (st : PingsState) (pid : Nat) (name : String)
    (code : Option Int) (chunks : List String) (m : String) (hm : m ≠ name) :
    mapGet (exitHandler st pid name code chunks).1.running m = mapGet st.running m := by
  rw [exitHandler_running]
  exact mapGet_mapDelete_ne st.running name m hm

theorem exitHandler_none_effects (st : PingsState) (pid : Nat) (name : String)
    (chunks : List String) :
    (exitHandler st pid name none chunks).2 = [] := by
  rw [exitHandler_effects]
  cases st.shuttingDown <;> rfl

theorem exitHandler_zero_effects (st : PingsState) (pid : Nat) (name : String)
    (chunks : List String) (h : st.shuttingDown = false) :
    (exitHandler st pid name (some 0) chunks).2 = [] := by
  rw [exitHandler_effects, h]
  rfl

theorem exitHandler_nonzero_effects (st : PingsState) (pid : Nat) (name : String)
    (chunks : List String) (c : Int) (h : st.shuttingDown = false) (hc : c ≠ 0) :
    (exitHandler st pid name (some c) chunks).2 =
      [Effect.deliver
        ("[PING:" ++ name ++ "] exited with code " ++ toString c ++ exitDetail chunks)] := by
  rw [exitHandler_effects, h]
  simp [hc]

theorem exitHandler_no_spawn (st : PingsState) (pid : Nat) (name : String)
    (code : Option Int) (chunks : List String) :
    ∀ e ∈ (exitHandler st pid name code chunks).2, e.isSpawn = false := by
  intro e he
  rw [exitHandler_effects] at he
  by_cases hsd : st.shuttingDown = true
  · simp [hsd] at he
  · rw [if_neg hsd] at he
    rcases code with _ | c
    · simp at he
    · by_cases hc : c = 0
      · simp [hc] at he
      · simp only [hc, if_false, List.mem_singleton] at he
        subst he
        rfl

theorem string_colon_ne_empty (t : String) : (": " ++ t) ≠ "" := by
  intro h
  have h2 : (": " ++ t).data = "".data := congrArg String.data h
  rw [String.data_append] at h2
  simp at h2

theorem exitDetail_eq_empty_iff (chunks : List String) :
    exitDetail chunks = "" ↔ jsTrim (String.join chunks) = "" := by
  unfold exitDetail
  by_cases h : jsTrim (String.join chunks) = ""
  · simp [h]
  · rw [if_neg (by simpa using h)]
    constructor
    · intro hc
      exact absurd hc (string_colon_ne_empty _)
    · intro hc
      exact absurd hc h

theorem errorHandler_spec (st : PingsState) (name errMsg : String)
    (h : st.shuttingDown = false) :
    errorHandler st name errMsg =
      ({ st with running := mapDelete st.running name },
       [Effect.deliver ("[PING:" ++ name ++ "] failed to start: " ++ errMsg)]) := by
  simp [errorHandler, h]

theorem errorHandler_not_has (st : PingsState) (name errMsg : String) :
    mapHas (errorHandler st name errMsg).1.running name = false := by
  unfold errorHandler
  split
  · exact mapHas_mapDelete_self st.running name
  · exact mapHas_mapDelete_self st.running name

/-! ### Step equations for the reconciliation loops -/

theorem contains_iff_mem (l : List String) (a : String) :
    l.contains a = true ↔ a ∈ l :=
  List.elem_iff

theorem contains_false_iff (l : List String) (a : String) :
    l.contains a = false ↔ a ∉ l := by
  constructor
  · intro h hm
    rw [(contains_iff_mem l a).2 hm] at h
    exact absurd h (by simp)
  · intro h
    cases hc : l.contains a
    · rfl
    · exact absurd ((contains_iff_mem l a).1 hc) h

theorem inEligibleB_cons_iff (e : DirEntry) (rest : List DirEntry) (n : String) :
    inEligibleB (e :: rest) n = true ↔
      ((e.name = n ∧ eligibleEntry e = true) ∨ inEligibleB rest n = true) := by
  simp [inEligibleB]

theorem syncStartLoop_nil (pingsDir : String) (oc : String → SpawnOutcome)
    (acc : SyncAcc) : syncStartLoop pingsDir oc [] acc = acc := rfl

theorem syncStartLoop_cons_stat_none (pingsDir : String) (oc : String → SpawnOutcome)
    (e : DirEntry) (rest : List DirEntry) (acc : SyncAcc) (h : e.stat = none) :
    syncStartLoop pingsDir oc (e :: rest) acc = syncStartLoop pingsDir oc rest acc := by
  simp only [syncStartLoop, h]

theorem syncStartLoop_cons_not_file (pingsDir : String) (oc : String → SpawnOutcome)
    (e : DirEntry) (rest : List DirEntry) (acc : SyncAcc) (s : FileStat)
    (h : e.stat = some s) (hf : s.isFile = false) :
    syncStartLoop pingsDir oc (e :: rest) acc = syncStartLoop pingsDir oc rest acc := by
  simp [syncStartLoop, h, hf]

theorem syncStartLoop_cons_not_exec (pingsDir : String) (oc : String → SpawnOutcome)
    (e : DirEntry) (rest : List DirEntry) (acc : SyncAcc) (s : FileStat)
    (h : e.stat = some s) (hf : s.isFile = true) (hx : s.mode &&& 64 = 0) :
    syncStartLoop pingsDir oc (e :: rest) acc = syncStartLoop pingsDir oc rest acc := by
  simp [syncStartLoop, h, hf, hx]

theorem syncStartLoop_cons_inel (pingsDir : String) (oc : String → SpawnOutcome)
    (e : DirEntry) (rest : List DirEntry) (acc : SyncAcc)
    (h : eligibleEntry e = false) :
    syncStartLoop pingsDir oc (e :: rest) acc = syncStartLoop pingsDir oc rest acc := by
  rcases hstat : e.stat with _ | s
  · exact syncStartLoop_cons_stat_none pingsDir oc e rest acc hstat
  · have h2 : (s.isFile && (s.mode &&& 64 != 0)) = false := by
      have h3 := h
      simp only [eligibleEntry, hstat] at h3
      exact h3
    cases hf : s.isFile
    · exact syncStartLoop_cons_not_file pingsDir oc e rest acc s hstat hf
    · have hx : s.mode &&& 64 = 0 := by
        rw [hf] at h2
        simpa using h2
      exact syncStartLoop_cons_not_exec pingsDir oc e rest acc s hstat hf hx

theorem syncStartLoop_cons_has (pingsDir : String) (oc : String → SpawnOutcome)
    (e : DirEntry) (rest : List DirEntry) (acc : SyncAcc) (s : FileStat)
    (h : e.stat = some s) (hf : s.isFile = true) (hx : (s.mode &&& 64 == 0) = false)
    (hh : mapHas acc.st.running e.name = true) :
    syncStartLoop pingsDir oc (e :: rest) acc =
      syncStartLoop pingsDir oc rest ⟨acc.scripts ++ [e.name], acc.st, acc.effs⟩ := by
  simp [syncStartLoop, h, hf, hx, hh]

theorem syncStartLoop_cons_start (pingsDir : String) (oc : String → SpawnOutcome)
    (e : DirEntry) (rest : List DirEntry) (acc : SyncAcc) (s : FileStat)
    (h : e.stat = some s) (hf : s.isFile = true) (hx : (s.mode &&& 64 == 0) = false)
    (hh : mapHas acc.st.running e.name = false) :
    syncStartLoop pingsDir oc (e :: rest) acc =
      syncStartLoop pingsDir oc rest
        ⟨acc.scripts ++ [e.name],
         (startPing acc.st (joinPath pingsDir e.name) (oc e.name)).1,
         acc.effs ++ (startPing acc.st (joinPath pingsDir e.name) (oc e.name)).2⟩ := by
  simp [syncStartLoop, h, hf, hx, hh]

theorem syncStopLoop_nil (scripts : List String) (st : PingsState) (effs : List Effect) :
    syncStopLoop [] scripts st effs = (st, effs) := rfl

theorem syncStopLoop_cons_mem (k : String) (rest scripts : List String)
    (st : PingsState) (effs : List Effect) (h : scripts.contains k = true) :
    syncStopLoop (k :: rest) scripts st effs = syncStopLoop rest scripts st effs := by
  simp only [syncStopLoop]
  rw [h]
  simp

theorem syncStopLoop_cons_not_mem (k : String) (rest scripts : List String)
    (st : PingsState) (effs : List Effect) (h : scripts.contains k = false) :
    syncStopLoop (k :: rest) scripts st effs =
      syncStopLoop rest scripts (stopPing st k).1 (effs ++ (stopPing st k).2) := by
  simp only [syncStopLoop]
  rw [h]
  simp

theorem boolFalse (b : Bool) (h : ¬ b = true) : b = false := by
  cases b
  · rfl
  · exact absurd rfl h

theorem eligibleEntry_decomp (e : DirEntry) (hel : eligibleEntry e = true) :
    ∃ s, e.stat = some s ∧ s.isFile = true ∧ (s.mode &&& 64 == 0) = false := by
  rcases hstat : e.stat with _ | s
  · exact absurd hel (by simp [eligibleEntry, hstat])
  · have h3 := hel
    simp only [eligibleEntry, hstat, Bool.and_eq_true] at h3
    refine ⟨s, rfl, h3.1, ?_⟩
    rw [beq_eq_false_iff_ne]
    simpa using h3.2

theorem syncStartLoop_has (pingsDir : String) (oc : String → SpawnOutcome)
    (hok : ∀ m, oc m = SpawnOutcome.ok) (ds : List DirEntry) :
    (∀ e ∈ ds, basename (joinPath pingsDir e.name) = e.name) →
    ∀ (acc : SyncAcc) (n : String),
      mapHas (syncStartLoop pingsDir oc ds acc).st.running n = true ↔
        (mapHas acc.st.running n = true ∨ inEligibleB ds n = true) := by
  induction ds with
  | nil =>
    intro _ acc n
    simp [syncStartLoop_nil, inEligibleB]
  | cons e rest ih =>
    intro hbase acc n
    have hbr : ∀ e' ∈ rest, basename (joinPath pingsDir e'.name) = e'.name :=
      fun e' h => hbase e' (List.mem_cons_of_mem e h)
    have hbe : basename (joinPath pingsDir e.name) = e.name :=
      hbase e (List.mem_cons_self e rest)
    by_cases hel : eligibleEntry e = true
    · obtain ⟨s, hstat, hf, hx⟩ := eligibleEntry_decomp e hel
      by_cases hh : mapHas acc.st.running e.name = true
      · rw [syncStartLoop_cons_has pingsDir oc e rest acc s hstat hf hx hh,
          ih hbr ⟨acc.scripts ++ [e.name], acc.st, acc.effs⟩ n, inEligibleB_cons_iff]
        dsimp only
        constructor
        · rintro (h1 | h2)
          · exact Or.inl h1
          · exact Or.inr (Or.inr h2)
        · rintro (h1 | (⟨rfl, _⟩ | h2))
          · exact Or.inl h1
          · exact Or.inl hh
          · exact Or.inr h2
      · have hhf := boolFalse _ hh
        rw [syncStartLoop_cons_start pingsDir oc e rest acc s hstat hf hx hhf,
          ih hbr _ n, inEligibleB_cons_iff]
        dsimp only
        rw [hok e.name, mapHas_startPing_ok_iff, hbe]
        constructor
        · rintro ((h1 | h1) | h2)
          · exact Or.inl h1
          · exact Or.inr (Or.inl ⟨h1.symm, hel⟩)
          · exact Or.inr (Or.inr h2)
        · rintro (h1 | (⟨rfl, _⟩ | h2))
          · exact Or.inl (Or.inl h1)
          · exact Or.inl (Or.inr rfl)
          · exact Or.inr h2
    · have helf := boolFalse _ hel
      rw [syncStartLoop_cons_inel pingsDir oc e rest acc helf, ih hbr acc n,
        inEligibleB_cons_iff]
      constructor
      · rintro (h1 | h2)
        · exact Or.inl h1
        · exact Or.inr (Or.inr h2)
      · rintro (h1 | (⟨rfl, hel'⟩ | h2))
        · exact Or.inl h1
        · rw [helf] at hel'
          exact absurd hel' (by simp)
        · exact Or.inr h2

theorem syncStartLoop_scripts (pingsDir : String) (oc : String → SpawnOutcome)
    (ds : List DirEntry) :
    ∀ (acc : SyncAcc) (n : String),
      n ∈ (syncStartLoop pingsDir oc ds acc).scripts ↔
        (n ∈ acc.scripts ∨ inEligibleB ds n = true) := by
  induction ds with
  | nil =>
    intro acc n
    simp [syncStartLoop_nil, inEligibleB]
  | cons e rest ih =>
    intro acc n
    by_cases hel : eligibleEntry e = true
    · obtain ⟨s, hstat, hf, hx⟩ := eligibleEntry_decomp e hel
      have hfin : ∀ (st' : PingsState) (effs' : List Effect),
          (n ∈ acc.scripts ++ [e.name] ∨ inEligibleB rest n = true) ↔
            (n ∈ acc.scripts ∨ inEligibleB (e :: rest) n = true) := by
        intro st' effs'
        rw [inEligibleB_cons_iff]
        constructor
        · rintro (h1 | h2)
          · rcases List.mem_append.1 h1 with h1 | h1
            · exact Or.inl h1
            · rw [List.mem_singleton] at h1
              exact Or.inr (Or.inl ⟨h1.symm, hel⟩)
          · exact Or.inr (Or.inr h2)
        · rintro (h1 | (⟨rfl, _⟩ | h2))
          · exact Or.inl (List.mem_append.2 (Or.inl h1))
          · exact Or.inl (List.mem_append.2 (Or.inr (List.mem_singleton.2 rfl)))
          · exact Or.inr h2
      by_cases hh : mapHas acc.st.running e.name = true
      · rw [syncStartLoop_cons_has pingsDir oc e rest acc s hstat hf hx hh, ih]
        dsimp only
        exact hfin acc.st []
      · have hhf := boolFalse _ hh
        rw [syncStartLoop_cons_start pingsDir oc e rest acc s hstat hf hx hhf, ih]
        dsimp only
        exact hfin acc.st []
    · have helf := boolFalse _ hel
      rw [syncStartLoop_cons_inel pingsDir oc e rest acc helf, ih, inEligibleB_cons_iff]
      constructor
      · rintro (h1 | h2)
        · exact Or.inl h1
        · exact Or.inr (Or.inr h2)
      · rintro (h1 | (⟨rfl, hel'⟩ | h2))
        · exact Or.inl h1
        · rw [helf] at hel'
          exact absurd hel' (by simp)
        · exact Or.inr h2

theorem syncStartLoop_effs (pingsDir : String) (oc : String → SpawnOutcome)
    (ds : List DirEntry) :
    ∀ (acc : SyncAcc), ∃ extra,
      (syncStartLoop pingsDir oc ds acc).effs = acc.effs ++ extra := by
  induction ds with
  | nil =>
    intro acc
    exact ⟨[], (List.append_nil _).symm⟩
  | cons e rest ih =>
    intro acc
    by_cases hel : eligibleEntry e = true
    · obtain ⟨s, hstat, hf, hx⟩ := eligibleEntry_decomp e hel
      by_cases hh : mapHas acc.st.running e.name = true
      · rw [syncStartLoop_cons_has pingsDir oc e rest acc s hstat hf hx hh]
        obtain ⟨extra, hx2⟩ := ih ⟨acc.scripts ++ [e.name], acc.st, acc.effs⟩
        exact ⟨extra, hx2⟩
      · have hhf := boolFalse _ hh
        rw [syncStartLoop_cons_start pingsDir oc e rest acc s hstat hf hx hhf]
        obtain ⟨extra, hx2⟩ := ih
          ⟨acc.scripts ++ [e.name],
           (startPing acc.st (joinPath pingsDir e.name) (oc e.name)).1,
           acc.effs ++ (startPing acc.st (joinPath pingsDir e.name) (oc e.name)).2⟩
        refine ⟨(startPing acc.st (joinPath pingsDir e.name) (oc e.name)).2 ++ extra, ?_⟩
        rw [hx2]
        dsimp only
        rw [List.append_assoc]
    · have helf := boolFalse _ hel
      rw [syncStartLoop_cons_inel pingsDir oc e rest acc helf]
      exact ih acc

theorem startPing_ok_spawn (st : PingsState) (p : String) :
    ∃ pid, Effect.spawnProc p pid ∈ (startPing st p .ok).2 := by
  simp only [startPing]
  exact ⟨(stopPing st (basename p)).1.entries.length, by simp⟩

theorem syncStartLoop_spawn (pingsDir : String) (oc : String → SpawnOutcome)
    (hok : ∀ m, oc m = SpawnOutcome.ok) (ds : List DirEntry) :
    (∀ e ∈ ds, basename (joinPath pingsDir e.name) = e.name) →
    ∀ (acc : SyncAcc) (n : String), inEligibleB ds n = true →
      mapHas acc.st.running n = true ∨
        ∃ pid, Effect.spawnProc (joinPath pingsDir n) pid
          ∈ (syncStartLoop pingsDir oc ds acc).effs := by
  induction ds with
  | nil =>
    intro _ acc n hEn
    simp [inEligibleB] at hEn
  | cons e rest ih =>
    intro hbase acc n hEn
    have hbr : ∀ e' ∈ rest, basename (joinPath pingsDir e'.name) = e'.name :=
      fun e' h => hbase e' (List.mem_cons_of_mem e h)
    have hbe : basename (joinPath pingsDir e.name) = e.name :=
      hbase e (List.mem_cons_self e rest)
    by_cases hel : eligibleEntry e = true
    · obtain ⟨s, hstat, hf, hx⟩ := eligibleEntry_decomp e hel
      by_cases hh : mapHas acc.st.running e.name = true
      · rw [syncStartLoop_cons_has pingsDir oc e rest acc s hstat hf hx hh]
        rcases (inEligibleB_cons_iff e rest n).1 hEn with ⟨rfl, _⟩ | hEr
        · exact Or.inl hh
        · rcases ih hbr ⟨acc.scripts ++ [e.name], acc.st, acc.effs⟩ n hEr with h1 | h1
          · exact Or.inl h1
          · exact Or.inr h1
      · have hhf := boolFalse _ hh
        rw [syncStartLoop_cons_start pingsDir oc e rest acc s hstat hf hx hhf]
        have hspawn : ∃ pid, Effect.spawnProc (joinPath pingsDir e.name) pid
            ∈ (startPing acc.st (joinPath pingsDir e.name) (oc e.name)).2 := by
          rw [hok e.name]
          exact startPing_ok_spawn acc.st (joinPath pingsDir e.name)
        obtain ⟨extone, hext⟩ := syncStartLoop_effs pingsDir oc rest
          ⟨acc.scripts ++ [e.name],
           (startPing acc.st (joinPath pingsDir e.name) (oc e.name)).1,
           acc.effs ++ (startPing acc.st (joinPath pingsDir e.name) (oc e.name)).2⟩
        dsimp only at hext
        have hmem : ∀ pid, Effect.spawnProc (joinPath pingsDir e.name) pid
            ∈ (startPing acc.st (joinPath pingsDir e.name) (oc e.name)).2 →
            Effect.spawnProc (joinPath pingsDir e.name) pid
              ∈ (syncStartLoop pingsDir oc rest
                  ⟨acc.scripts ++ [e.name],
                   (startPing acc.st (joinPath pingsDir e.name) (oc e.name)).1,
                   acc.effs ++ (startPing acc.st (joinPath pingsDir e.name) (oc e.name)).2⟩).effs := by
          intro pid hpid
          rw [hext, List.append_assoc]
          exact List.mem_append.2 (Or.inr (List.mem_append.2 (Or.inl hpid)))
        rcases (inEligibleB_cons_iff e rest n).1 hEn with ⟨rfl, _⟩ | hEr
        · obtain ⟨pid, hpid⟩ := hspawn
          exact Or.inr ⟨pid, hmem pid hpid⟩
        · rcases ih hbr ⟨acc.scripts ++ [e.name],
              (startPing acc.st (joinPath pingsDir e.name) (oc e.name)).1,
              acc.effs ++ (startPing acc.st (joinPath pingsDir e.name) (oc e.name)).2⟩ n hEr
            with h1 | h1
          · dsimp only at h1
            rw [hok e.name] at h1
            rcases (mapHas_startPing_ok_iff acc.st _ n).1 h1 with h2 | h2
            · exact Or.inl h2
            · rw [hbe] at h2
              subst h2
              obtain ⟨pid, hpid⟩ := hspawn
              exact Or.inr ⟨pid, hmem pid hpid⟩
          · exact Or.inr h1
    · have helf := boolFalse _ hel
      rw [syncStartLoop_cons_inel pingsDir oc e rest acc helf]
      rcases (inEligibleB_cons_iff e rest n).1 hEn with ⟨rfl, hel'⟩ | hEr
      · rw [helf] at hel'
        exact absurd hel' (by simp)
      · exact ih hbr acc n hEr

theorem inEligibleB_cons_false (e : DirEntry) (rest : List DirEntry) (n : String)
    (h : inEligibleB (e :: rest) n = false) :
    ¬(e.name = n ∧ eligibleEntry e = true) ∧ inEligibleB rest n = false := by
  constructor
  · rintro ⟨rfl, hel⟩
    rw [(inEligibleB_cons_iff e rest e.name).2 (Or.inl ⟨rfl, hel⟩)] at h
    exact absurd h (by simp)
  · cases hr : inEligibleB rest n
    · rfl
    · rw [(inEligibleB_cons_iff e rest n).2 (Or.inr hr)] at h
      exact absurd h (by simp)

theorem syncStartLoop_get (pingsDir : String) (oc : String → SpawnOutcome)
    (ds : List DirEntry) :
    (∀ e ∈ ds, basename (joinPath pingsDir e.name) = e.name) →
    ∀ (acc : SyncAcc) (n : String), inEligibleB ds n = false →
      mapGet (syncStartLoop pingsDir oc ds acc).st.running n = mapGet acc.st.running n := by
  induction ds with
  | nil =>
    intro _ acc n _
    rw [syncStartLoop_nil]
  | cons e rest ih =>
    intro hbase acc n hEn
    have hbr : ∀ e' ∈ rest, basename (joinPath pingsDir e'.name) = e'.name :=
      fun e' h => hbase e' (List.mem_cons_of_mem e h)
    have hbe : basename (joinPath pingsDir e.name) = e.name :=
      hbase e (List.mem_cons_self e rest)
    obtain ⟨hhd, hEr⟩ := inEligibleB_cons_false e rest n hEn
    by_cases hel : eligibleEntry e = true
    · obtain ⟨s, hstat, hf, hx⟩ := eligibleEntry_decomp e hel
      have hne : e.name ≠ n := fun hh => hhd ⟨hh, hel⟩
      by_cases hh : mapHas acc.st.running e.name = true
      · rw [syncStartLoop_cons_has pingsDir oc e rest acc s hstat hf hx hh,
          ih hbr ⟨acc.scripts ++ [e.name], acc.st, acc.effs⟩ n hEr]
      · have hhf := boolFalse _ hh
        rw [syncStartLoop_cons_start pingsDir oc e rest acc s hstat hf hx hhf,
          ih hbr ⟨acc.scripts ++ [e.name],
            (startPing acc.st (joinPath pingsDir e.name) (oc e.name)).1,
            acc.effs ++ (startPing acc.st (joinPath pingsDir e.name) (oc e.name)).2⟩ n hEr]
        dsimp only
        exact mapGet_startPing_ne acc.st _ _ n (by rw [hbe]; exact hne)
    · have helf := boolFalse _ hel
      rw [syncStartLoop_cons_inel pingsDir oc e rest acc helf, ih hbr acc n hEr]

theorem syncStartLoop_entries (pingsDir : String) (oc : String → SpawnOutcome)
    (ds : List DirEntry) :
    ∀ (acc : SyncAcc), ∃ extra,
      (syncStartLoop pingsDir oc ds acc).st.entries = acc.st.entries ++ extra := by
  induction ds with
  | nil =>
    intro acc
    exact ⟨[], (List.append_nil _).symm⟩
  | cons e rest ih =>
    intro acc
    by_cases hel : eligibleEntry e = true
    · obtain ⟨s, hstat, hf, hx⟩ := eligibleEntry_decomp e hel
      by_cases hh : mapHas acc.st.running e.name = true
      · rw [syncStartLoop_cons_has pingsDir oc e rest acc s hstat hf hx hh]
        exact ih ⟨acc.scripts ++ [e.name], acc.st, acc.effs⟩
      · have hhf := boolFalse _ hh
        rw [syncStartLoop_cons_start pingsDir oc e rest acc s hstat hf hx hhf]
        obtain ⟨ex1, hex1⟩ := startPing_entries_append acc.st
          (joinPath pingsDir e.name) (oc e.name)
        obtain ⟨ex2, hex2⟩ := ih ⟨acc.scripts ++ [e.name],
          (startPing acc.st (joinPath pingsDir e.name) (oc e.name)).1,
          acc.effs ++ (startPing acc.st (joinPath pingsDir e.name) (oc e.name)).2⟩
        refine ⟨ex1 ++ ex2, ?_⟩
        rw [hex2]
        dsimp only
        rw [hex1, List.append_assoc]
    · have helf := boolFalse _ hel
      rw [syncStartLoop_cons_inel pingsDir oc e rest acc helf]
      exact ih acc

theorem syncStartLoop_nodup (pingsDir : String) (oc : String → SpawnOutcome)
    (ds : List DirEntry) :
    ∀ (acc : SyncAcc), keysNodup acc.st.running →
      keysNodup (syncStartLoop pingsDir oc ds acc).st.running := by
  induction ds with
  | nil =>
    intro acc h
    rw [syncStartLoop_nil]
    exact h
  | cons e rest ih =>
    intro acc h
    by_cases hel : eligibleEntry e = true
    · obtain ⟨s, hstat, hf, hx⟩ := eligibleEntry_decomp e hel
      by_cases hh : mapHas acc.st.running e.name = true
      · rw [syncStartLoop_cons_has pingsDir oc e rest acc s hstat hf hx hh]
        exact ih ⟨acc.scripts ++ [e.name], acc.st, acc.effs⟩ h
      · have hhf := boolFalse _ hh
        rw [syncStartLoop_cons_start pingsDir oc e rest acc s hstat hf hx hhf]
        exact ih _ (startPing_keysNodup acc.st _ _ h)
    · have helf := boolFalse _ hel
      rw [syncStartLoop_cons_inel pingsDir oc e rest acc helf]
      exact ih acc h

theorem entryAliveB_stopPing (st : PingsState) (k : String) (pid : Nat) :
    entryAliveB (stopPing st k).1 pid = entryAliveB st pid := by
  unfold entryAliveB
  rw [stopPing_entries]

theorem syncStopLoop_has (scripts : List String) (keys : List String) :
    ∀ (st : PingsState) (effs : List Effect) (n : String),
      mapHas (syncStopLoop keys scripts st effs).1.running n = true ↔
        (mapHas st.running n = true ∧ (n ∈ scripts ∨ n ∉ keys)) := by
  induction keys with
  | nil =>
    intro st effs n
    rw [syncStopLoop_nil]
    simp
  | cons k rest ih =>
    intro st effs n
    by_cases hk : k ∈ scripts
    · rw [syncStopLoop_cons_mem k rest scripts st effs ((contains_iff_mem _ _).2 hk), ih]
      constructor
      · rintro ⟨h1, h2 | h2⟩
        · exact ⟨h1, Or.inl h2⟩
        · by_cases hn : n = k
          · exact ⟨h1, Or.inl (hn ▸ hk)⟩
          · refine ⟨h1, Or.inr ?_⟩
            intro hm
            rcases List.mem_cons.1 hm with h3 | h3
            · exact hn h3
            · exact h2 h3
      · rintro ⟨h1, h2 | h2⟩
        · exact ⟨h1, Or.inl h2⟩
        · exact ⟨h1, Or.inr (fun hm => h2 (List.mem_cons_of_mem k hm))⟩
    · rw [syncStopLoop_cons_not_mem k rest scripts st effs
        ((contains_false_iff _ _).2 hk), ih]
      constructor
      · rintro ⟨h1, h2⟩
        rcases (mapHas_stopPing_iff st k n).1 h1 with ⟨h3, hne⟩
        rcases h2 with h2 | h2
        · exact ⟨h3, Or.inl h2⟩
        · refine ⟨h3, Or.inr ?_⟩
          intro hm
          rcases List.mem_cons.1 hm with h4 | h4
          · exact hne h4
          · exact h2 h4
      · rintro ⟨h1, h2⟩
        have hne : n ≠ k := by
          rintro rfl
          rcases h2 with h2 | h2
          · exact hk h2
          · exact h2 (List.mem_cons_self n rest)
        refine ⟨(mapHas_stopPing_iff st k n).2 ⟨h1, hne⟩, ?_⟩
        rcases h2 with h2 | h2
        · exact Or.inl h2
        · exact Or.inr (fun hm => h2 (List.mem_cons_of_mem k hm))

theorem syncStopLoop_effs (scripts : List String) (keys : List String) :
    ∀ (st : PingsState) (effs : List Effect), ∃ extra,
      (syncStopLoop keys scripts st effs).2 = effs ++ extra := by
  induction keys with
  | nil =>
    intro st effs
    exact ⟨[], (List.append_nil _).symm⟩
  | cons k rest ih =>
    intro st effs
    by_cases hk : k ∈ scripts
    · rw [syncStopLoop_cons_mem k rest scripts st effs ((contains_iff_mem _ _).2 hk)]
      exact ih st effs
    · rw [syncStopLoop_cons_not_mem k rest scripts st effs
        ((contains_false_iff _ _).2 hk)]
      obtain ⟨extra, hx⟩ := ih (stopPing st k).1 (effs ++ (stopPing st k).2)
      refine ⟨(stopPing st k).2 ++ extra, ?_⟩
      rw [hx, List.append_assoc]

theorem syncStopLoop_entries (scripts : List String) (keys : List String) :
    ∀ (st : PingsState) (effs : List Effect),
      (syncStopLoop keys scripts st effs).1.entries = st.entries := by
  induction keys with
  | nil =>
    intro st effs
    rw [syncStopLoop_nil]
  | cons k rest ih =>
    intro st effs
    by_cases hk : k ∈ scripts
    · rw [syncStopLoop_cons_mem k rest scripts st effs ((contains_iff_mem _ _).2 hk)]
      exact ih st effs
    · rw [syncStopLoop_cons_not_mem k rest scripts st effs
        ((contains_false_iff _ _).2 hk), ih, stopPing_entries]

theorem syncStopLoop_nodup (scripts : List String) (keys : List String) :
    ∀ (st : PingsState) (effs : List Effect), keysNodup st.running →
      keysNodup (syncStopLoop keys scripts st effs).1.running := by
  induction keys with
  | nil =>
    intro st effs h
    rw [syncStopLoop_nil]
    exact h
  | cons k rest ih =>
    intro st effs h
    by_cases hk : k ∈ scripts
    · rw [syncStopLoop_cons_mem k rest scripts st effs ((contains_iff_mem _ _).2 hk)]
      exact ih st effs h
    · rw [syncStopLoop_cons_not_mem k rest scripts st effs
        ((contains_false_iff _ _).2 hk)]
      exact ih _ _ (stopPing_keysNodup st k h)

theorem syncStopLoop_kills (scripts : List String) (keys : List String) :
    ∀ (st : PingsState) (effs : List Effect) (n : String) (pid : Nat),
      n ∈ keys → n ∉ scripts → mapGet st.running n = some pid →
      entryAliveB st pid = true →
      Effect.kill pid "SIGTERM" ∈ (syncStopLoop keys scripts st effs).2 := by
  induction keys with
  | nil =>
    intro st effs n pid hmem _ _ _
    exact absurd hmem (List.not_mem_nil n)
  | cons k rest ih =>
    intro st effs n pid hmem hns hget halive
    by_cases hk : k ∈ scripts
    · rw [syncStopLoop_cons_mem k rest scripts st effs ((contains_iff_mem _ _).2 hk)]
      have hnk : n ≠ k := fun h => hns (h ▸ hk)
      rcases List.mem_cons.1 hmem with h1 | h1
      · exact absurd h1 hnk
      · exact ih st effs n pid h1 hns hget halive
    · rw [syncStopLoop_cons_not_mem k rest scripts st effs
        ((contains_false_iff _ _).2 hk)]
      by_cases hnk : n = k
      · subst hnk
        have hkill := stopPing_kills st n pid hget halive
        obtain ⟨extra, hx⟩ := syncStopLoop_effs scripts rest (stopPing st n).1
          (effs ++ (stopPing st n).2)
        rw [hx, hkill, List.append_assoc]
        exact List.mem_append.2 (Or.inr (List.mem_append.2 (Or.inl (List.mem_singleton.2 rfl))))
      · rcases List.mem_cons.1 hmem with h1 | h1
        · exact absurd h1 hnk
        · refine ih _ _ n pid h1 hns ?_ ?_
          · rw [mapGet_stopPing_ne st k n hnk]
            exact hget
          · rw [entryAliveB_stopPing]
            exact halive

theorem syncPings_some_eq (ds : List DirEntry) (oc : String → SpawnOutcome)
    (pingsDir : String) (st : PingsState) :
    syncPings (some ds) oc pingsDir st =
      syncStopLoop
        ((syncStartLoop pingsDir oc ds ⟨[], st, []⟩).st.running.map Prod.fst)
        (syncStartLoop pingsDir oc ds ⟨[], st, []⟩).scripts
        (syncStartLoop pingsDir oc ds ⟨[], st, []⟩).st
        (syncStartLoop pingsDir oc ds ⟨[], st, []⟩).effs := rfl

theorem syncPings_none_eq (oc : String → SpawnOutcome) (pingsDir : String)
    (st : PingsState) :
    syncPings none oc pingsDir st = (st, [Effect.mkdir pingsDir]) := rfl

theorem mapHas_of_mapGet_some (m : List (String × Nat)) (k : String) (pid : Nat)
    (h : mapGet m k = some pid) : mapHas m k = true := by
  cases hh : mapHas m k
  · rw [(mapGet_eq_none_iff m k).2 hh] at h
    exact absurd h (by simp)
  · rfl

theorem syncPings_has (ds : List DirEntry) (oc : String → SpawnOutcome)
    (pingsDir : String) (st : PingsState)
    (hok : ∀ m, oc m = SpawnOutcome.ok)
    (hbase : ∀ e ∈ ds, basename (joinPath pingsDir e.name) = e.name)
    (n : String) :
    mapHas (syncPings (some ds) oc pingsDir st).1.running n = inEligibleB ds n := by
  rw [boolEqIff, syncPings_some_eq, syncStopLoop_has]
  have hH := syncStartLoop_has pingsDir oc hok ds hbase ⟨[], st, []⟩ n
  have hS := syncStartLoop_scripts pingsDir oc ds ⟨[], st, []⟩ n
  dsimp only at hH hS
  constructor
  · rintro ⟨h1, h2⟩
    rcases h2 with h2 | h2
    · rcases hS.1 h2 with h4 | h4
      · exact absurd h4 (List.not_mem_nil n)
      · exact h4
    · exact absurd ((mem_keys_iff _ n).2 h1) h2
  · intro hE
    exact ⟨hH.2 (Or.inr hE), Or.inl (hS.2 (Or.inr hE))⟩

theorem syncPings_spawner (ds : List DirEntry) (oc : String → SpawnOutcome)
    (pingsDir : String) (st : PingsState)
    (hok : ∀ m, oc m = SpawnOutcome.ok)
    (hbase : ∀ e ∈ ds, basename (joinPath pingsDir e.name) = e.name)
    (e : DirEntry) (he : e ∈ ds) (hel : eligibleEntry e = true)
    (habs : mapHas st.running e.name = false) :
    ∃ pid, Effect.spawnProc (joinPath pingsDir e.name) pid
      ∈ (syncPings (some ds) oc pingsDir st).2 := by
  have hE : inEligibleB ds e.name = true := by
    unfold inEligibleB
    rw [List.any_eq_true]
    exact ⟨e, he, by simp [hel]⟩
  rcases syncStartLoop_spawn pingsDir oc hok ds hbase ⟨[], st, []⟩ e.name hE with h1 | h1
  · dsimp only at h1
    rw [habs] at h1
    exact absurd h1 (by simp)
  · obtain ⟨pid, hpid⟩ := h1
    obtain ⟨extra, hx⟩ := syncStopLoop_effs
      (syncStartLoop pingsDir oc ds ⟨[], st, []⟩).scripts
      ((syncStartLoop pingsDir oc ds ⟨[], st, []⟩).st.running.map Prod.fst)
      (syncStartLoop pingsDir oc ds ⟨[], st, []⟩).st
      (syncStartLoop pingsDir oc ds ⟨[], st, []⟩).effs
    refine ⟨pid, ?_⟩
    rw [syncPings_some_eq, hx]
    exact List.mem_append.2 (Or.inl hpid)

theorem entryAliveB_mono (st st' : PingsState) (pid : Nat) (extra : List PingEntry)
    (h : st'.entries = st.entries ++ extra) (ha : entryAliveB st pid = true) :
    entryAliveB st' pid = true := by
  unfold entryAliveB at ha ⊢
  cases hg : st.entries.get? pid with
  | none =>
    rw [hg] at ha
    exact absurd ha (by simp)
  | some e =>
    have hlt : pid < st.entries.length := by
      by_contra hge
      push_neg at hge
      rw [List.get?_eq_none.2 hge] at hg
      exact absurd hg (by simp)
    rw [h, List.get?_append hlt, hg]
    rw [hg] at ha
    exact ha

theorem syncPings_stale_kill (ds : List DirEntry) (oc : String → SpawnOutcome)
    (pingsDir : String) (st : PingsState) (n : String) (pid : Nat)
    (hok : ∀ m, oc m = SpawnOutcome.ok)
    (hbase : ∀ e ∈ ds, basename (joinPath pingsDir e.name) = e.name)
    (hne : inEligibleB ds n = false)
    (hget : mapGet st.running n = some pid) (halive : entryAliveB st pid = true) :
    mapHas (syncPings (some ds) oc pingsDir st).1.running n = false
    ∧ Effect.kill pid "SIGTERM" ∈ (syncPings (some ds) oc pingsDir st).2 := by
  constructor
  · rw [syncPings_has ds oc pingsDir st hok hbase n]
    exact hne
  · rw [syncPings_some_eq]
    have hacc_get : mapGet (syncStartLoop pingsDir oc ds ⟨[], st, []⟩).st.running n
        = some pid := by
      rw [syncStartLoop_get pingsDir oc ds hbase ⟨[], st, []⟩ n hne]
      exact hget
    have hacc_has : mapHas (syncStartLoop pingsDir oc ds ⟨[], st, []⟩).st.running n = true :=
      mapHas_of_mapGet_some _ n pid hacc_get
    obtain ⟨extra, hent⟩ := syncStartLoop_entries pingsDir oc ds ⟨[], st, []⟩
    apply syncStopLoop_kills
    · exact (mem_keys_iff _ n).2 hacc_has
    · intro hmem
      rcases (syncStartLoop_scripts pingsDir oc ds ⟨[], st, []⟩ n).1 hmem with h4 | h4
      · exact List.not_mem_nil n h4
      · rw [hne] at h4
        exact absurd h4 (by simp)
    · exact hacc_get
    · exact entryAliveB_mono st _ pid extra (by dsimp only at hent ⊢; exact hent) halive

theorem syncPings_nodup (dir : Option (List DirEntry)) (oc : String → SpawnOutcome)
    (pingsDir : String) (st : PingsState) (h : keysNodup st.running) :
    keysNodup (syncPings dir oc pingsDir st).1.running := by
  cases dir with
  | none => exact h
  | some ds =>
    rw [syncPings_some_eq]
    exact syncStopLoop_nodup _ _ _ _ (syncStartLoop_nodup pingsDir oc ds ⟨[], st, []⟩ h)

theorem afterEvents_last (l : List Nat) (t : Nat) :
    afterEvents (l ++ [t]) = some (t + debounceDelayMs) := by
  unfold afterEvents
  rw [List.foldl_append]
  rfl

/-! ### Lemmas about the line forwarder -/

theorem splitNl_cons (c : Char) (cs : List Char) :
    splitNl (c :: cs) =
      if c = '\n' then [] :: splitNl cs
      else (c :: (splitNl cs).headI) :: (splitNl cs).tail := by
  simp only [splitNl]

theorem splitNl_nlfree (buf : List Char) (h : ∀ c ∈ buf, c ≠ '\n') :
    splitNl buf = [buf] := by
  induction buf with
  | nil => rfl
  | cons c cs ih =>
    rw [splitNl_cons, if_neg (h c (List.mem_cons_self c cs)),
      ih (fun c' hc' => h c' (List.mem_cons_of_mem c hc'))]
    rfl

theorem splitNl_append_newline (buf : List Char) (rest : List Char)
    (h : ∀ c ∈ buf, c ≠ '\n') :
    splitNl (buf ++ '\n' :: rest) = buf :: splitNl rest := by
  induction buf with
  | nil =>
    rw [List.nil_append, splitNl_cons, if_pos rfl]
  | cons c cs ih =>
    rw [List.cons_append, splitNl_cons, if_neg (h c (List.mem_cons_self c cs)),
      ih (fun c' hc' => h c' (List.mem_cons_of_mem c hc'))]
    rfl

theorem feedChars_nil (st : RlBuf) : feedChars st [] = (st, []) := rfl

theorem feedChars_cr (st : RlBuf) (cs : List Char) :
    feedChars st ('\r' :: cs) =
      ((feedChars ⟨[], true⟩ cs).1, st.buf :: (feedChars ⟨[], true⟩ cs).2) := by
  simp [feedChars]

theorem feedChars_lf_false (st : RlBuf) (cs : List Char) (h : st.sawCR = false) :
    feedChars st ('\n' :: cs) =
      ((feedChars ⟨[], false⟩ cs).1, st.buf :: (feedChars ⟨[], false⟩ cs).2) := by
  simp [feedChars, h]

theorem feedChars_lf_true (st : RlBuf) (cs : List Char) (h : st.sawCR = true) :
    feedChars st ('\n' :: cs) = feedChars ⟨st.buf, false⟩ cs := by
  simp [feedChars, h]

theorem feedChars_other (st : RlBuf) (c : Char) (cs : List Char)
    (hr : c ≠ '\r') (hn : c ≠ '\n') :
    feedChars st (c :: cs) = feedChars ⟨st.buf ++ [c], false⟩ cs := by
  simp [feedChars, hr, hn]

theorem feedChars_flag_eq (buf : List Char) (c : Char) (cs : List Char)
    (hn : c ≠ '\n') :
    feedChars ⟨buf, true⟩ (c :: cs) = feedChars ⟨buf, false⟩ (c :: cs) := by
  by_cases hr : c = '\r'
  · subst hr
    rw [feedChars_cr, feedChars_cr]
  · rw [feedChars_other ⟨buf, true⟩ c cs hr hn, feedChars_other ⟨buf, false⟩ c cs hr hn]

theorem normalizeNl_cr (cs : List Char) :
    normalizeNl ('\r' :: cs) = '\n' :: normalizeNl (dropLeadingLF cs) := by
  rcases cs with _ | ⟨c2, cs2⟩
  · rfl
  · by_cases hn : c2 = '\n'
    · subst hn
      simp [normalizeNl, dropLeadingLF]
    · simp [normalizeNl, dropLeadingLF, hn]

theorem normalizeNl_cons_other (c : Char) (cs : List Char) (h : c ≠ '\r') :
    normalizeNl (c :: cs) = c :: normalizeNl cs := by
  rw [normalizeNl.eq_def]
  dsimp only
  rw [if_neg h]

theorem splitNl_feedChars (s : List Char) :
    ∀ (buf : List Char), (∀ c ∈ buf, c ≠ '\n') →
      (splitNl (buf ++ normalizeNl s) =
          (feedChars ⟨buf, false⟩ s).2 ++ [(feedChars ⟨buf, false⟩ s).1.buf])
      ∧ (splitNl (buf ++ normalizeNl (dropLeadingLF s)) =
          (feedChars ⟨buf, true⟩ s).2 ++ [(feedChars ⟨buf, true⟩ s).1.buf]) := by
  induction s with
  | nil =>
    intro buf h
    constructor
    · rw [show normalizeNl [] = [] from rfl, List.append_nil, splitNl_nlfree buf h,
        feedChars_nil]
      rfl
    · rw [show dropLeadingLF [] = [] from rfl, show normalizeNl [] = [] from rfl,
        List.append_nil, splitNl_nlfree buf h, feedChars_nil]
      rfl
  | cons c s2 ih =>
    intro buf h
    have hF : splitNl (buf ++ normalizeNl (c :: s2)) =
        (feedChars ⟨buf, false⟩ (c :: s2)).2
          ++ [(feedChars ⟨buf, false⟩ (c :: s2)).1.buf] := by
      by_cases hr : c = '\r'
      · subst hr
        rw [normalizeNl_cr, feedChars_cr, splitNl_append_newline buf _ h]
        have ihT := (ih [] (fun x hx => absurd hx (List.not_mem_nil x))).2
        rw [List.nil_append] at ihT
        rw [ihT]
        rfl
      · by_cases hn : c = '\n'
        · subst hn
          rw [normalizeNl_cons_other '\n' s2 (by decide),
            feedChars_lf_false ⟨buf, false⟩ s2 rfl, splitNl_append_newline buf _ h]
          have ihF := (ih [] (fun x hx => absurd hx (List.not_mem_nil x))).1
          rw [List.nil_append] at ihF
          rw [ihF]
          rfl
        · rw [normalizeNl_cons_other c s2 hr, feedChars_other ⟨buf, false⟩ c s2 hr hn]
          have hb : ∀ x ∈ buf ++ [c], x ≠ '\n' := by
            intro x hx
            rcases List.mem_append.1 hx with h1 | h1
            · exact h x h1
            · rw [List.mem_singleton] at h1
              subst h1
              exact hn
          have hsplit : buf ++ c :: normalizeNl s2 = (buf ++ [c]) ++ normalizeNl s2 := by
            rw [List.append_assoc]
            rfl
          rw [hsplit]
          exact (ih (buf ++ [c]) hb).1
    refine ⟨hF, ?_⟩
    by_cases hn : c = '\n'
    · subst hn
      rw [show dropLeadingLF ('\n' :: s2) = s2 from by simp [dropLeadingLF],
        feedChars_lf_true ⟨buf, true⟩ s2 rfl]
      exact (ih buf h).1
    · rw [show dropLeadingLF (c :: s2) = c :: s2 from by simp [dropLeadingLF, hn],
        feedChars_flag_eq buf c s2 hn]
      exact hF

theorem splitNl_feed_empty (cs : List Char) :
    splitNl (normalizeNl cs) =
      (feedChars ⟨[], false⟩ cs).2 ++ [(feedChars ⟨[], false⟩ cs).1.buf] := by
  have h := (splitNl_feedChars cs [] (fun x hx => absurd hx (List.not_mem_nil x))).1
  rwa [List.nil_append] at h

theorem feedChars_append (a b : List Char) :
    ∀ st, feedChars st (a ++ b) =
      ((feedChars (feedChars st a).1 b).1,
       (feedChars st a).2 ++ (feedChars (feedChars st a).1 b).2) := by
  induction a with
  | nil =>
    intro st
    rw [List.nil_append, feedChars_nil]
    simp
  | cons c a2 ih =>
    intro st
    by_cases hr : c = '\r'
    · subst hr
      rw [List.cons_append, feedChars_cr, feedChars_cr, ih ⟨[], true⟩]
      dsimp only
      rw [List.cons_append]
    · by_cases hn : c = '\n'
      · subst hn
        cases hcr : st.sawCR
        · rw [List.cons_append, feedChars_lf_false st _ hcr,
            feedChars_lf_false st _ hcr, ih ⟨[], false⟩]
          dsimp only
          rw [List.cons_append]
        · rw [List.cons_append, feedChars_lf_true st _ hcr, feedChars_lf_true st _ hcr]
          exact ih ⟨st.buf, false⟩
      · rw [List.cons_append, feedChars_other st c _ hr hn, feedChars_other st c _ hr hn]
        exact ih ⟨st.buf ++ [c], false⟩

theorem runChunks_eq_feed (chunks : List (List Char)) :
    ∀ st, runChunks st chunks = feedChars st chunks.flatten := by
  induction chunks with
  | nil =>
    intro st
    rfl
  | cons ch rest ih =>
    intro st
    rw [show (ch :: rest).flatten = ch ++ rest.flatten from rfl, feedChars_append]
    simp only [runChunks]
    rw [ih (feedChars st ch).1]

theorem streamDeliveries_eq (name : String) (chunks : List (List Char)) :
    streamDeliveries name chunks =
      (splitNl (normalizeNl chunks.flatten)).filterMap
        (fun l => lineHandler name (String.mk l)) := by
  unfold streamDeliveries rlLines
  rw [runChunks_eq_feed chunks ⟨[], false⟩, splitNl_feed_empty chunks.flatten,
    List.filterMap_append, List.filterMap_append]
  congr 1
  rcases hb : (feedChars ⟨[], false⟩ chunks.flatten).1.buf with _ | ⟨c, cs⟩
  · have h0 : lineHandler name (String.mk []) = none := rfl
    simp [closeEmit, h0]
  · simp [closeEmit]

theorem exitHandler_keysNodup (st : PingsState) (pid : Nat) (name : String)
    (code : Option Int) (chunks : List String) (h : keysNodup st.running) :
    keysNodup (exitHandler st pid name code chunks).1.running := by
  rw [exitHandler_running]
  exact keysNodup_mapDelete _ _ h

theorem errorHandler_keysNodup (st : PingsState) (name errMsg : String)
    (h : keysNodup st.running) :
    keysNodup (errorHandler st name errMsg).1.running := by
  unfold errorHandler
  split
  · exact keysNodup_mapDelete _ _ h
  · exact keysNodup_mapDelete _ _ h

theorem stopPing_keysNodup_state (st : PingsState) (name : String)
    (h : keysNodup st.running) : keysNodup (stopPing st name).1.running :=
  stopPing_keysNodup st name h

/-! ### Claim theorems -/

/-- C1 (code bug): the claim says the watcher layer force-stops a live entry
when its file is modified, so that the next sync restarts it.  In the code the
watch callback only reschedules the debounce timer, and `syncPings` leaves a
name that is both running and eligible completely untouched: with script `a`
running and its (modified, still eligible) file present, the watch callback
changes no supervisor state and the triggered sync performs no stop, no start
and no effect at all, so the old process keeps running with stale content —
contradicting the header comment "Modify the script file to restart it with
new contents". -/
theorem c1_modify_event_no_restart :
    watchCallback (startPing initState "/p/a" SpawnOutcome.ok).1 5 none
      = ((startPing initState "/p/a" SpawnOutcome.ok).1, some 205)
    ∧ syncPings (some [⟨"a", some ⟨true, 493⟩⟩]) (fun _ => SpawnOutcome.ok) "/p"
        (startPing initState "/p/a" SpawnOutcome.ok).1
      = ((startPing initState "/p/a" SpawnOutcome.ok).1, []) :=
  ⟨rfl, rfl⟩

/-- C2 (counterexample): a start immediately after a stop of `a` does not
fully supersede it — when the old process' (pid 0) late exit event fires, its
handler removes the table binding for `a` by name, deleting the NEW entry
(pid 1, still alive) from the live table. -/
theorem c2_late_exit_removes_new_entry :
    mapHas (startPing (stopPing (startPing initState "/p/a" SpawnOutcome.ok).1 "a").1
        "/p/a" SpawnOutcome.ok).1.running "a" = true
    ∧ entryAliveB (exitHandler
        (startPing (stopPing (startPing initState "/p/a" SpawnOutcome.ok).1 "a").1
          "/p/a" SpawnOutcome.ok).1 0 "a" none []).1 1 = true
    ∧ mapHas (exitHandler
        (startPing (stopPing (startPing initState "/p/a" SpawnOutcome.ok).1 "a").1
          "/p/a" SpawnOutcome.ok).1 0 "a" none []).1.running "a" = false := by
  refine ⟨?_, ?_, ?_⟩ <;> decide

/-- C2 (amended): a late exit event from an old handle mutates only its own
entry object's alive flag (all other stored entries are untouched) and never
touches other names, but it removes whatever table binding currently exists
under its name — even a newer one; line events never mutate the state. -/
theorem c2_amended_late_events_scoped (st : PingsState) (pid : Nat)
    (name : String) (code : Option Int) (chunks : List String)
    (q : Nat) (m line : String) (hq : q ≠ pid) (hm : m ≠ name) :
    mapHas (exitHandler st pid name code chunks).1.running name = false
    ∧ (exitHandler st pid name code chunks).1.entries.get? q = st.entries.get? q
    ∧ mapGet (exitHandler st pid name code chunks).1.running m = mapGet st.running m
    ∧ (handleLineEvent st name line).1 = st :=
  ⟨exitHandler_not_has st pid name code chunks,
   exitHandler_entries_other st pid name code chunks q hq,
   exitHandler_other_names st pid name code chunks m hm,
   rfl⟩

/-- Witness for the amended C2 theorem at a concrete input. -/
theorem c2_amended_late_events_scoped_witness :
    mapHas (exitHandler initState 0 "a" none []).1.running "a" = false
    ∧ (exitHandler initState 0 "a" none []).1.entries.get? 1 = initState.entries.get? 1
    ∧ mapGet (exitHandler initState 0 "a" none []).1.running "b"
        = mapGet initState.running "b"
    ∧ (handleLineEvent initState "a" "x").1 = initState :=
  c2_amended_late_events_scoped initState 0 "a" none [] 1 "b" "x"
    (by decide) (by decide)

/-- C3: a completed sync pass makes the live table's key set equal the
eligible-file name set of the observed directory state; in particular it
spawns every eligible name absent from the table, removes every table name
absent from the eligible set, and for any sequence of directory states the
final table is determined by the last state (assuming all spawns succeed and
each entry name round-trips through `path.join`/`path.basename`). -/
theorem c3_sync_converges (ds : List DirEntry) (oc : String → SpawnOutcome)
    (pingsDir : String) (st : PingsState) (dss : List (List DirEntry))
    (hok : ∀ m, oc m = SpawnOutcome.ok)
    (hbase : (ds.all (fun e => basename (joinPath pingsDir e.name) == e.name)) = true) :
    (∀ n, mapHas (syncPings (some ds) oc pingsDir st).1.running n = inEligibleB ds n)
    ∧ (∀ e ∈ ds, eligibleEntry e = true → mapHas st.running e.name = false →
        ∃ pid, Effect.spawnProc (joinPath pingsDir e.name) pid
          ∈ (syncPings (some ds) oc pingsDir st).2)
    ∧ (∀ n, inEligibleB ds n = false →
        mapHas (syncPings (some ds) oc pingsDir st).1.running n = false)
    ∧ (∀ n, mapHas ((dss ++ [ds]).foldl
        (fun s d => (syncPings (some d) oc pingsDir s).1) st).running n
          = inEligibleB ds n) := by
  have hbase' : ∀ e ∈ ds, basename (joinPath pingsDir e.name) = e.name := by
    intro e he
    exact beq_iff_eq.1 ((List.all_eq_true.1 hbase) e he)
  refine ⟨fun n => syncPings_has ds oc pingsDir st hok hbase' n,
    fun e he hel habs => syncPings_spawner ds oc pingsDir st hok hbase' e he hel habs,
    fun n hne => ?_, fun n => ?_⟩
  · rw [syncPings_has ds oc pingsDir st hok hbase' n]
    exact hne
  · rw [List.foldl_append]
    simp only [List.foldl_cons, List.foldl_nil]
    exact syncPings_has ds oc pingsDir _ hok hbase' n

/-- Witness for the C3 theorem at a concrete directory state. -/
theorem c3_sync_converges_witness :
    mapHas (syncPings (some [⟨"a", some ⟨true, 493⟩⟩, ⟨"b", some ⟨true, 420⟩⟩])
        (fun _ => SpawnOutcome.ok) "/p"
        (startPing initState "/p/old" SpawnOutcome.ok).1).1.running "a"
      = inEligibleB [⟨"a", some ⟨true, 493⟩⟩, ⟨"b", some ⟨true, 420⟩⟩] "a" :=
  (c3_sync_converges [⟨"a", some ⟨true, 493⟩⟩, ⟨"b", some ⟨true, 420⟩⟩]
    (fun _ => SpawnOutcome.ok) "/p" (startPing initState "/p/old" SpawnOutcome.ok).1 []
    (fun _ => rfl) (by decide)).1 "a"

/-- C4 (counterexample): with accumulated stderr `" "` (non-empty) and exit
code 7, the delivered message carries no `": <stderr>"` suffix, because the
code appends the suffix only when the stderr is non-empty AFTER trimming —
refuting "appended iff the accumulated stderr is non-empty". -/
theorem c4_whitespace_stderr_no_detail :
    (exitHandler initState 0 "n" (some 7) [" "]).2
      = [Effect.deliver "[PING:n] exited with code 7"]
    ∧ String.join [" "] ≠ "" := by
  refine ⟨?_, ?_⟩ <;> decide

/-- C4 (amended): when not shutting down, exit code 0 delivers nothing, exit
code `c ≠ 0` delivers exactly one message
`[PING:name] exited with code c` with the `": <stderr>"` suffix present iff
the accumulated stderr is non-empty after trimming, and the exit callback
never spawns (never restarts) for any exit code. -/
theorem c4_amended_exit_reporting (st : PingsState) (pid : Nat) (name : String)
    (chunks : List String) (c : Int) (code : Option Int)
    (hsd : st.shuttingDown = false) (hc : c ≠ 0) :
    (exitHandler st pid name (some 0) chunks).2 = []
    ∧ (exitHandler st pid name (some c) chunks).2 =
        [Effect.deliver ("[PING:" ++ name ++ "] exited with code " ++ toString c
          ++ exitDetail chunks)]
    ∧ (exitDetail chunks = "" ↔ jsTrim (String.join chunks) = "")
    ∧ (∀ e ∈ (exitHandler st pid name code chunks).2, e.isSpawn = false) :=
  ⟨exitHandler_zero_effects st pid name chunks hsd,
   exitHandler_nonzero_effects st pid name chunks c hsd hc,
   exitDetail_eq_empty_iff chunks,
   exitHandler_no_spawn st pid name code chunks⟩

/-- Witness for the amended C4 theorem at a concrete input. -/
theorem c4_amended_exit_reporting_witness :
    (exitHandler initState 0 "n" (some 0) ["err\n"]).2 = []
    ∧ (exitHandler initState 0 "n" (some 7) ["err\n"]).2 =
        [Effect.deliver ("[PING:" ++ "n" ++ "] exited with code " ++ toString (7 : Int)
          ++ exitDetail ["err\n"])]
    ∧ (exitDetail ["err\n"] = "" ↔ jsTrim (String.join ["err\n"]) = "")
    ∧ (∀ e ∈ (exitHandler initState 0 "n" (some 7) ["err\n"]).2, e.isSpawn = false) :=
  c4_amended_exit_reporting initState 0 "n" ["err\n"] 7 (some 7) rfl (by decide)

/-- C5 (counterexample): a start whose spawn throws synchronously reports the
failure only via `console.error` — the effect list contains no delivery-sink
call at all — refuting "the failure is reported via the delivery sink"; no
table entry remains. -/
theorem c5_sync_throw_not_delivered :
    ((startPing initState "/p/a" (SpawnOutcome.syncThrow "boom")).2.all
        (fun e => !e.isDeliver)) = true
    ∧ (startPing initState "/p/a" (SpawnOutcome.syncThrow "boom")).2
        = [Effect.logError "[pings] Error starting a: boom"]
    ∧ mapHas (startPing initState "/p/a"
        (SpawnOutcome.syncThrow "boom")).1.running "a" = false := by
  refine ⟨?_, ?_, ?_⟩ <;> decide

/-- C5 (amended): a synchronous spawn exception is logged locally (no sink
delivery) and leaves no entry for the name; a spawn failure surfaced through
the child's error event, when the supervisor is not shutting down, is
delivered as `[PING:name] failed to start: <reason>` and leaves no entry. -/
theorem c5_amended_spawn_failure (st st2 : PingsState) (p msg name2 msg2 : String)
    (hsd : st2.shuttingDown = false) :
    mapHas (startPing st p (SpawnOutcome.syncThrow msg)).1.running (basename p) = false
    ∧ (∀ e ∈ (startPing st p (SpawnOutcome.syncThrow msg)).2, e.isDeliver = false)
    ∧ Effect.logError ("[pings] Error starting " ++ basename p ++ ": " ++ msg)
        ∈ (startPing st p (SpawnOutcome.syncThrow msg)).2
    ∧ mapHas (errorHandler st2 name2 msg2).1.running name2 = false
    ∧ (errorHandler st2 name2 msg2).2
        = [Effect.deliver ("[PING:" ++ name2 ++ "] failed to start: " ++ msg2)] := by
  refine ⟨?_, startPing_throw_no_deliver st p msg, startPing_throw_logs st p msg,
    errorHandler_not_has st2 name2 msg2, ?_⟩
  · cases hh : mapHas (startPing st p (SpawnOutcome.syncThrow msg)).1.running (basename p)
    · rfl
    · exact absurd ((mapHas_startPing_throw_iff st p msg (basename p)).1 hh).2 (by simp)
  · rw [errorHandler_spec st2 name2 msg2 hsd]

/-- Witness for the amended C5 theorem at a concrete input. -/
theorem c5_amended_spawn_failure_witness :
    mapHas (startPing initState "/p/a"
        (SpawnOutcome.syncThrow "boom")).1.running (basename "/p/a") = false
    ∧ (∀ e ∈ (startPing initState "/p/a" (SpawnOutcome.syncThrow "boom")).2,
        e.isDeliver = false)
    ∧ Effect.logError ("[pings] Error starting " ++ basename "/p/a" ++ ": " ++ "boom")
        ∈ (startPing initState "/p/a" (SpawnOutcome.syncThrow "boom")).2
    ∧ mapHas (errorHandler initState "b" "enoent").1.running "b" = false
    ∧ (errorHandler initState "b" "enoent").2
        = [Effect.deliver ("[PING:" ++ "b" ++ "] failed to start: " ++ "enoent")] :=
  c5_amended_spawn_failure initState initState "/p/a" "boom" "b" "enoent" rfl

/-- C6 (counterexample): a process the supervisor never killed (its whole
start emitted no kill effect) exits with code null (external signal), yet the
exit handler delivers nothing — refuting "a failure line is delivered" for
non-supervisor-initiated signal termination. -/
theorem c6_external_signal_no_report :
    ((startPing initState "/p/a" SpawnOutcome.ok).2.all (fun e => !e.isKill)) = true
    ∧ (exitHandler (startPing initState "/p/a" SpawnOutcome.ok).1
        0 "a" none ["oops"]).2 = [] := by
  refine ⟨?_, ?_⟩ <;> decide

/-- C6 (amended): signal termination (exit code null) never produces a
failure report, whether or not the supervisor issued the kill — the exit
handler delivers nothing whenever the code is null. -/
theorem c6_amended_null_exit_silent (st : PingsState) (pid : Nat) (name : String)
    (chunks : List String) :
    (exitHandler st pid name none chunks).2 = [] :=
  exitHandler_none_effects st pid name chunks

/-- C7 (counterexample): after the sync pass triggered by deleting script
`a`'s file has stopped its entry (SIGTERM sent, table binding removed), a
line event from the still-running process is STILL delivered tagged
`[PING:a]` — the line handler is never detached — refuting "no further line
deliveries tagged with that script occur after the stop". -/
theorem c7_line_delivered_after_stop :
    mapHas (startPing initState "/p/a" SpawnOutcome.ok).1.running "a" = true
    ∧ (syncPings (some []) (fun _ => SpawnOutcome.ok) "/p"
        (startPing initState "/p/a" SpawnOutcome.ok).1).2 = [Effect.kill 0 "SIGTERM"]
    ∧ mapHas (syncPings (some []) (fun _ => SpawnOutcome.ok) "/p"
        (startPing initState "/p/a" SpawnOutcome.ok).1).1.running "a" = false
    ∧ (handleLineEvent (syncPings (some []) (fun _ => SpawnOutcome.ok) "/p"
        (startPing initState "/p/a" SpawnOutcome.ok).1).1 "a" "hello").2
      = [Effect.deliver "[PING:a] hello"] := by
  refine ⟨?_, ?_, ?_, ?_⟩ <;> decide

/-- C7 (amended): when a script's file is deleted, the debounced sync runs
exactly one debounce interval (200 ms) after the last watch event, and that
sync removes the script's entry from the live table and sends SIGTERM to its
still-alive process; line deliveries, however, may continue until the OS
process actually exits, since stopping does not detach the line handler. -/
theorem c7_amended_stop_within_debounce (l : List Nat) (t : Nat)
    (ds : List DirEntry) (oc : String → SpawnOutcome) (pingsDir : String)
    (st : PingsState) (name : String) (pid : Nat)
    (hok : ∀ m, oc m = SpawnOutcome.ok)
    (hbase : (ds.all (fun e => basename (joinPath pingsDir e.name) == e.name)) = true)
    (hne : inEligibleB ds name = false)
    (hget : mapGet st.running name = some pid)
    (halive : entryAliveB st pid = true) :
    afterEvents (l ++ [t]) = some (t + debounceDelayMs)
    ∧ mapHas (syncPings (some ds) oc pingsDir st).1.running name = false
    ∧ Effect.kill pid "SIGTERM" ∈ (syncPings (some ds) oc pingsDir st).2 := by
  have hbase' : ∀ e ∈ ds, basename (joinPath pingsDir e.name) = e.name := by
    intro e he
    exact beq_iff_eq.1 ((List.all_eq_true.1 hbase) e he)
  obtain ⟨h1, h2⟩ := syncPings_stale_kill ds oc pingsDir st name pid hok hbase'
    hne hget halive
  exact ⟨afterEvents_last l t, h1, h2⟩

/-- Witness for the amended C7 theorem at a concrete input. -/
theorem c7_amended_stop_within_debounce_witness :
    afterEvents ([0, 50] ++ [100]) = some (100 + debounceDelayMs)
    ∧ mapHas (syncPings (some []) (fun _ => SpawnOutcome.ok) "/p"
        (startPing initState "/p/a" SpawnOutcome.ok).1).1.running "a" = false
    ∧ Effect.kill 0 "SIGTERM" ∈ (syncPings (some []) (fun _ => SpawnOutcome.ok) "/p"
        (startPing initState "/p/a" SpawnOutcome.ok).1).2 :=
  c7_amended_stop_within_debounce [0, 50] 100 [] (fun _ => SpawnOutcome.ok) "/p"
    (startPing initState "/p/a" SpawnOutcome.ok).1 "a" 0
    (fun _ => rfl) rfl rfl (by decide) (by decide)

/-- C8 (counterexample): starting a name that already has a live entry can
leave ZERO entries for that name when the spawn call throws synchronously
(the prior instance is stopped, nothing is inserted) — refuting "exactly one
live entry for that name exists afterward". -/
theorem c8_spawn_throw_zero_entries :
    mapHas (startPing initState "/p/a" SpawnOutcome.ok).1.running "a" = true
    ∧ countKey (startPing (startPing initState "/p/a" SpawnOutcome.ok).1 "/p/a"
        (SpawnOutcome.syncThrow "x")).1.running "a" = 0 := by
  refine ⟨?_, ?_⟩ <;> decide

/-- C8 (amended): every table operation preserves key uniqueness (at most one
live entry per name at every instant); start unconditionally kills a live
prior instance of the name first; when the spawn call returns a handle
exactly one live entry for the name exists afterward, while a synchronous
spawn failure leaves none. -/
theorem c8_amended_unique_entry (st : PingsState) (p : String) (oc2 : SpawnOutcome)
    (name errMsg msg : String) (pid : Nat) (code : Option Int)
    (chunks : List String) (dir : Option (List DirEntry))
    (ocs : String → SpawnOutcome) (pingsDir : String)
    (hnd : keysNodup st.running)
    (hget : mapGet st.running (basename p) = some pid)
    (halive : entryAliveB st pid = true) :
    keysNodup (startPing st p oc2).1.running
    ∧ keysNodup (stopPing st name).1.running
    ∧ keysNodup (exitHandler st pid name code chunks).1.running
    ∧ keysNodup (errorHandler st name errMsg).1.running
    ∧ keysNodup (syncPings dir ocs pingsDir st).1.running
    ∧ Effect.kill pid "SIGTERM" ∈ (startPing st p oc2).2
    ∧ countKey (startPing st p SpawnOutcome.ok).1.running (basename p) = 1
    ∧ countKey (startPing st p (SpawnOutcome.syncThrow msg)).1.running (basename p) = 0 :=
  ⟨startPing_keysNodup st p oc2 hnd,
   stopPing_keysNodup_state st name hnd,
   exitHandler_keysNodup st pid name code chunks hnd,
   errorHandler_keysNodup st name errMsg hnd,
   syncPings_nodup dir ocs pingsDir st hnd,
   startPing_kills_prior st p oc2 pid hget halive,
   startPing_ok_countKey st p,
   startPing_throw_countKey st p msg⟩

/-- Witness for the amended C8 theorem at a concrete input. -/
theorem c8_amended_unique_entry_witness :
    keysNodup (startPing (startPing initState "/p/a" SpawnOutcome.ok).1
        "/p/a" SpawnOutcome.ok).1.running
    ∧ keysNodup (stopPing (startPing initState "/p/a" SpawnOutcome.ok).1 "a").1.running
    ∧ keysNodup (exitHandler (startPing initState "/p/a" SpawnOutcome.ok).1
        0 "a" (some 0) []).1.running
    ∧ keysNodup (errorHandler (startPing initState "/p/a" SpawnOutcome.ok).1
        "a" "err").1.running
    ∧ keysNodup (syncPings (some []) (fun _ => SpawnOutcome.ok) "/p"
        (startPing initState "/p/a" SpawnOutcome.ok).1).1.running
    ∧ Effect.kill 0 "SIGTERM"
        ∈ (startPing (startPing initState "/p/a" SpawnOutcome.ok).1
            "/p/a" SpawnOutcome.ok).2
    ∧ countKey (startPing (startPing initState "/p/a" SpawnOutcome.ok).1
        "/p/a" SpawnOutcome.ok).1.running (basename "/p/a") = 1
    ∧ countKey (startPing (startPing initState "/p/a" SpawnOutcome.ok).1
        "/p/a" (SpawnOutcome.syncThrow "x")).1.running (basename "/p/a") = 0 :=
  c8_amended_unique_entry (startPing initState "/p/a" SpawnOutcome.ok).1
    "/p/a" SpawnOutcome.ok "a" "err" "x" 0 (some 0) [] (some [])
    (fun _ => SpawnOutcome.ok) "/p" (by unfold keysNodup; decide) (by decide) (by decide)

/-- C9 (counterexample): the line forwarder trims LEADING whitespace too: for
the stdout stream `"  hi\n"` it delivers `[PING:n] hi`, not the
trailing-only-trimmed `[PING:n]   hi` the claim describes. -/
theorem c9_leading_whitespace_trimmed :
    streamDeliveries "n" [("  hi\n").data] = ["[PING:n] hi"]
    ∧ trimEndSpec "  hi" = "  hi"
    ∧ ("[PING:n] hi" : String) ≠ "[PING:n] " ++ trimEndSpec "  hi" := by
  refine ⟨?_, ?_, ?_⟩ <;> decide

/-- C9 (amended): for every chunking of a script's stdout stream, the
forwarder delivers exactly the lines of the whole stream split at readline's
line breaks (`\n`, `\r\n` as a single break, and lone `\r`), in order,
each trimmed of leading AND trailing whitespace, dropped when empty after
trimming, and otherwise delivered exactly once as `[PING:name] <trimmed line>`. -/
theorem c9_amended_line_forwarding (name : String) (chunks : List (List Char)) :
    streamDeliveries name chunks =
      (splitNl (normalizeNl chunks.flatten)).filterMap (fun l =>
        if jsTrim (String.mk l) == "" then none
        else some ("[PING:" ++ name ++ "] " ++ jsTrim (String.mk l))) := by
  rw [streamDeliveries_eq]
  rfl

/-- C10: when the pings directory does not exist, `syncPings` creates it and
returns immediately: the live table is unchanged, the only effect is the
mkdir (no stop, no kill), and line events of the still-running processes are
delivered exactly as before the pass. -/
theorem c10_missing_dir_keeps_running (oc : String → SpawnOutcome)
    (pingsDir : String) (st : PingsState) :
    syncPings none oc pingsDir st = (st, [Effect.mkdir pingsDir])
    ∧ (∀ name line, handleLineEvent (syncPings none oc pingsDir st).1 name line
        = handleLineEvent st name line) :=
  ⟨rfl, fun _ _ => rfl⟩
